import Mathlib

/-!
# A verification of the `MineSweeperBoard` core (`minesweeper.py`)

This file shallowly embeds the board model of the minesweeper repository:
the grid is the Python `dict` from position tuples to bit-packed cell
states (`_SAFE = 0`, `_MINE = 1`, `_FLAGGED = 2`, `_OPEN = 4`,
`_OPEN_MINE = 5`), modelled as an association list over `Int × Int`; the
mutating methods `action`, `flag`, `reveal`, `get_neighbors` and
`open_mines` become pure state-passing functions.  Python's recursive
flood fill (`action` ↔ `reveal`) is embedded with an explicit fuel
parameter; `actionF fuel b p fl = none` models either fuel exhaustion or
a raised `KeyError` (the only exception the code can raise: a position
missing from the grid dict), and `some b'` models normal return with
post-state `b'`.  A fuel bound of `2 * closedCount b + 4` is proved
sufficient, so `action` (the fueled function at that bound) is the
function computed by the Python method whenever the Python method
terminates normally.
-/

/-- A cell position, the Python `tuple<int>` key `(column, row)`. -/
abbrev Pos := Int × Int

/-- The grid, the Python `dict<tuple<int>, int>`, as an association list.
Construction produces distinct keys; all operations preserve the key list. -/
abbrev Grid := List (Pos × Nat)

/-- Python `self.grid[key]` (first matching entry; `none` = `KeyError`). -/
def lookupG : Grid → Pos → Option Nat
  | [], _ => none
  | e :: rest, p => if e.1 = p then some e.2 else lookupG rest p

/-- Python `self.grid[key] = value` on an existing key: every entry whose key
is `p` is overwritten.  (The code only ever assigns to keys it has just read,
so no key is ever created; on a duplicate-free list this is the dict update.) -/
def setG (g : Grid) (p : Pos) (v : Nat) : Grid :=
  g.map (fun e => if e.1 = p then (p, v) else e)

/-- The board: the fields of `MineSweeperBoard.__init__`. -/
structure MineSweeperBoard where
  grid : Grid
  mines_left : Int
  hints : List (Pos × Nat)
  cols : Int
  lines : Int
  last_clicked : Option Nat
  cells_revealed : Nat
  safe_cells : Int
deriving DecidableEq, Repr

/-- `MineSweeperBoard.__init__(grid, mines, cols, lines)`. -/
def initBoard (grid : Grid) (mines : Int) (cols lines : Int) : MineSweeperBoard :=
  { grid := grid
    mines_left := mines
    hints := []
    cols := cols
    lines := lines
    last_clicked := none
    cells_revealed := 0
    safe_cells := cols * lines - mines }

/-- The eight `(dy, dx)` offsets of `get_neighbors`, in source order. -/
def neighborOffsets : List (Int × Int) :=
  [(-1, -1), (-1, 0), (-1, 1), (0, -1), (0, 1), (1, -1), (1, 0), (1, 1)]

/-- `get_neighbors(position)`: the in-bounds Moore neighbours, in the order
the generator yields them (`x2 = x + dx`, `y2 = y + dy`,
kept iff `0 <= x2 < cols and 0 <= y2 < lines`). -/
def get_neighbors (cols lines : Int) (p : Pos) : List Pos :=
  neighborOffsets.filterMap (fun d =>
    if 0 ≤ p.1 + d.2 ∧ p.1 + d.2 < cols ∧ 0 ≤ p.2 + d.1 ∧ p.2 + d.1 < lines then
      some (p.1 + d.2, p.2 + d.1)
    else none)

/-- `sum(self[pos] & _MINE == _MINE for pos in neighbors)`; `none` models the
`KeyError` raised if some neighbour is missing from the grid. -/
def minesNearby (g : Grid) : List Pos → Option Nat
  | [] => some 0
  | q :: rest =>
    match lookupG g q, minesNearby g rest with
    | some s, some m => some ((if s &&& 1 = 1 then 1 else 0) + m)
    | _, _ => none

/-- Python `self.hints[position] = v` (dict assignment: update in place if the
key exists, else append). -/
def setHints (h : List (Pos × Nat)) (p : Pos) (v : Nat) : List (Pos × Nat) :=
  if (lookupG h p).isSome then h.map (fun e => if e.1 = p then (p, v) else e)
  else h ++ [(p, v)]

/-- The `flag` method.  `s` is the state `action` just read at `position`
(so the key is present).  The toggled value `v` is what
`self[position]` holds when the `elif self[position] == _MINE` test runs. -/
def flagOp (b : MineSweeperBoard) (p : Pos) (s : Nat) : MineSweeperBoard :=
  let v := if s &&& 2 = 2 then s ^^^ 2 else s ||| 2
  let b1 := { b with grid := setG b.grid p v }
  if s = 1 then { b1 with mines_left := b1.mines_left - 1 }
  else if v = 1 then { b1 with mines_left := b1.mines_left + 1 }
  else b1

/-- The first two lines of `reveal`: `self.last_clicked = state;
self[position] |= _OPEN`. -/
def openCell (b : MineSweeperBoard) (p : Pos) (s : Nat) : MineSweeperBoard :=
  { b with grid := setG b.grid p (s ||| 4), last_clicked := some s }

/-- The `action` method (with `reveal` inlined), with explicit fuel.
`none` is fuel exhaustion or a `KeyError`; every branch mirrors the source:
`state == _OPEN` → return; `flag` → `self.flag`; `state & _FLAGGED` →
return; otherwise `reveal`, which stops on a mine, else increments
`cells_revealed`, stores the hint and flood-fills when it is zero. -/
def actionF : Nat → MineSweeperBoard → Pos → Bool → Option MineSweeperBoard
  | 0, _, _, _ => none
  | n + 1, b, p, fl =>
    match lookupG b.grid p with
    | none => none
    | some s =>
      if s = 4 then some b
      else if fl then some (flagOp b p s)
      else if s &&& 2 = 2 then some b
      else
        let b1 := openCell b p s
        if s = 1 then some b1
        else
          let b2 := { b1 with cells_revealed := b1.cells_revealed + 1 }
          let ns := get_neighbors b2.cols b2.lines p
          match minesNearby b2.grid ns with
          | none => none
          | some m =>
            let b3 := { b2 with hints := setHints b2.hints p m }
            if m = 0 then ns.foldlM (fun acc r => actionF n acc r false) b3
            else some b3

/-- The flood-fill loop `for neighbor in neighbors: self.action(neighbor)`. -/
def actionsF (n : Nat) (b : MineSweeperBoard) (l : List Pos) : Option MineSweeperBoard :=
  l.foldlM (fun acc r => actionF n acc r false) b

/-- Closed entries of a grid (no `_OPEN` bit). -/
def closedCountG (g : Grid) : Nat :=
  g.countP (fun e => e.2 &&& 4 == 0)

/-- Number of grid entries without the `_OPEN` bit — the flood-fill measure. -/
def closedCount (b : MineSweeperBoard) : Nat :=
  closedCountG b.grid

/-- Fuel proved sufficient for `actionF` (theorem `actionF_stable`). -/
def fuelBound (b : MineSweeperBoard) : Nat :=
  2 * closedCount b + 4

/-- The `action` method: the fueled embedding at its sufficient bound. -/
def action (b : MineSweeperBoard) (p : Pos) (fl : Bool) : Option MineSweeperBoard :=
  actionF (fuelBound b) b p fl

/-- The `open_mines` method: every cell whose state carries `_MINE` is set to
`_OPEN_MINE`. -/
def open_mines (b : MineSweeperBoard) : MineSweeperBoard :=
  { b with grid := b.grid.map (fun e => if e.2 &&& 1 = 1 then (e.1, 5) else e) }

/-- `range(n)` as integers. -/
def intRange (n : Int) : List Int :=
  (List.range n.toNat).map (Nat.cast : Nat → Int)

/-- `itertools.product(range(cols), range(lines))`, in source order. -/
def allPositions (cols lines : Int) : List Pos :=
  (intRange cols).flatMap (fun x => (intRange lines).map (fun y => (x, y)))

/-- Line 43: `{pos: [_SAFE, _MINE][pos in mines] for pos in cells}` for a
given mine membership test. -/
def mkGrid (cols lines : Int) (isMine : Pos → Bool) : Grid :=
  (allPositions cols lines).map (fun p => (p, if isMine p then 1 else 0))

/-- `MineSweeperBoard.random(cols, lines, n)` once `random.sample` has
returned the list `mines`: the board built from the comprehension on line
43 with `num_of_mines = n`.  (`random.sample` returns `n` distinct
in-bounds positions; a caller models that by choosing such a list.) -/
def randomBoard (cols lines : Int) (mines : List Pos) (n : Int) : MineSweeperBoard :=
  initBoard (mkGrid cols lines (fun p => mines.contains p)) n cols lines

/-- All cell states are bitsets over `_MINE/_FLAGGED/_OPEN`, i.e. `< 8` —
the data model of the spec (every state the program constructs is one of
`0,1,2,3,4,5`). -/
def ValidStates (b : MineSweeperBoard) : Prop :=
  ∀ e ∈ b.grid, e.2 < 8

instance (b : MineSweeperBoard) : Decidable (ValidStates b) :=
  inferInstanceAs (Decidable (∀ e ∈ b.grid, e.2 < 8))

/-- Every in-bounds position is a key of the grid (true of every constructed
board; needed for the neighbour lookups inside `reveal` not to raise). -/
def WFgrid (b : MineSweeperBoard) : Prop :=
  ∀ q ∈ allPositions b.cols b.lines, (lookupG b.grid q).isSome

instance (b : MineSweeperBoard) : Decidable (WFgrid b) :=
  inferInstanceAs (Decidable (∀ q ∈ allPositions b.cols b.lines, (lookupG b.grid q).isSome))

/-- The cell at `q` has the `_OPEN` bit. -/
def openAt (g : Grid) (q : Pos) : Prop :=
  ∃ s, lookupG g q = some s ∧ s &&& 4 ≠ 0

/-- The cell at `q` has the `_FLAGGED` bit. -/
def flaggedAt (g : Grid) (q : Pos) : Prop :=
  ∃ s, lookupG g q = some s ∧ s &&& 2 = 2

/-- The cell at `q`, if present, has no `_MINE` bit. -/
def mineFreeAt (g : Grid) (q : Pos) : Prop :=
  ∀ s, lookupG g q = some s → s &&& 1 = 0

/-- `self[pos] & _MINE == _MINE` as a total test (missing keys count 0;
on well-formed boards every tested key is present). -/
def mineBit (g : Grid) (q : Pos) : Bool :=
  ((lookupG g q).getD 0) &&& 1 == 1

/-- The number of mined in-bounds neighbours of `q` — the value `reveal`
stores in `hints[q]` when it opens `q` (theorem `minesNearby_eq_hintVal`). -/
def hintVal (cols lines : Int) (g : Grid) (q : Pos) : Nat :=
  ((get_neighbors cols lines q).filter (mineBit g)).length

/-- The board after `reveal`'s first four lines on a non-mine `state = s`:
`last_clicked = s`, `_OPEN` set at `p`, `cells_revealed` incremented. -/
def revealStep (b : MineSweeperBoard) (p : Pos) (s : Nat) : MineSweeperBoard :=
  { openCell b p s with cells_revealed := b.cells_revealed + 1 }

/-- `revealStep` followed by `self.hints[position] = m`. -/
def hintBoard (b : MineSweeperBoard) (p : Pos) (s m : Nat) : MineSweeperBoard :=
  { revealStep b p s with hints := setHints b.hints p m }

/-- How a board may change across a (non-flagging) `action` call: the
dimensions, the key set and `safe_cells` are untouched, and each cell either
keeps its state or has the `_OPEN` bit added to it. -/
def Evolves (a c : MineSweeperBoard) : Prop :=
  c.cols = a.cols ∧ c.lines = a.lines ∧ c.safe_cells = a.safe_cells ∧
  c.grid.map Prod.fst = a.grid.map Prod.fst ∧
  ∀ q, lookupG c.grid q = lookupG a.grid q ∨
    ∃ s, lookupG a.grid q = some s ∧ lookupG c.grid q = some (s ||| 4)

/-- Across a call, `last_clicked` is either untouched or holds a mine-free
state. -/
def lcSafe (x y : MineSweeperBoard) : Prop :=
  y.last_clicked = x.last_clicked ∨ ∃ t, y.last_clicked = some t ∧ t &&& 1 = 0

/-- Flood-fill closure property of a call from `x` to `y`: a cell opened by
the call whose stored hint is zero has all its neighbours opened, except
those that were flagged. -/
def PostRel (x y : MineSweeperBoard) : Prop :=
  ∀ q, ¬ openAt x.grid q → openAt y.grid q → mineFreeAt x.grid q →
    hintVal x.cols x.lines x.grid q = 0 →
    ∀ r ∈ get_neighbors x.cols x.lines q, openAt y.grid r ∨ flaggedAt x.grid r

/-- The closure the cascade computes: everything reachable from `c` by
repeatedly stepping from a zero-hint cell to one of its neighbours. -/
inductive Reach (cols lines : Int) (hint : Pos → Nat) (c : Pos) : Pos → Prop
  | base : Reach cols lines hint c c
  | step {q r : Pos} : Reach cols lines hint c q → hint q = 0 →
      r ∈ get_neighbors cols lines q → Reach cols lines hint c r

/-- The connected zero-hint region containing `c` (spec §8): zero-hint cells
joined to `c` by chains of zero-hint Moore neighbours. -/
inductive ZeroRegion (cols lines : Int) (hint : Pos → Nat) (c : Pos) : Pos → Prop
  | base : hint c = 0 → ZeroRegion cols lines hint c c
  | step {q r : Pos} : ZeroRegion cols lines hint c q → r ∈ get_neighbors cols lines q →
      hint r = 0 → ZeroRegion cols lines hint c r

/-- The ring bordering the zero-hint region of `c` (spec §8): non-zero-hint
neighbours of region cells. -/
def RingCell (cols lines : Int) (hint : Pos → Nat) (c r : Pos) : Prop :=
  (∃ q, ZeroRegion cols lines hint c q ∧ r ∈ get_neighbors cols lines q) ∧ hint r ≠ 0

/-! ## Bitwise facts about the packed cell states -/

/-- `testBit` of the constant `_OPEN = 4 = 2^2`. -/
theorem testBit_four (j : Nat) : Nat.testBit 4 j = decide (2 = j) := by
  rw [show (4 : Nat) = 2 ^ 2 from rfl, Nat.testBit_two_pow]

/-- `testBit` of the constant `_FLAGGED = 2 = 2^1`. -/
theorem testBit_two (j : Nat) : Nat.testBit 2 j = decide (1 = j) := by
  rw [show (2 : Nat) = 2 ^ 1 from rfl, Nat.testBit_two_pow]

/-- `testBit` of the constant `_MINE = 1 = 2^0`. -/
theorem testBit_one (j : Nat) : Nat.testBit 1 j = decide (0 = j) := by
  rw [show (1 : Nat) = 2 ^ 0 from rfl, Nat.testBit_two_pow]

/-- Setting `_OPEN` makes the `_OPEN` test succeed. -/
theorem or_four_and_four (s : Nat) : (s ||| 4) &&& 4 = 4 := by
  apply Nat.eq_of_testBit_eq
  intro i
  rw [Nat.testBit_and, Nat.testBit_or, testBit_four i]
  by_cases h : 2 = i <;> simp [h]

/-- Setting `_OPEN` preserves the `_MINE` bit. -/
theorem or_four_and_one (s : Nat) : (s ||| 4) &&& 1 = s &&& 1 := by
  apply Nat.eq_of_testBit_eq
  intro i
  rw [Nat.testBit_and, Nat.testBit_and, Nat.testBit_or, testBit_four i, testBit_one i]
  by_cases h : 0 = i
  · subst h; simp
  · simp [h]

/-- Setting `_OPEN` preserves the `_FLAGGED` bit. -/
theorem or_four_and_two (s : Nat) : (s ||| 4) &&& 2 = s &&& 2 := by
  apply Nat.eq_of_testBit_eq
  intro i
  rw [Nat.testBit_and, Nat.testBit_and, Nat.testBit_or, testBit_four i, testBit_two i]
  by_cases h : 1 = i
  · subst h; simp
  · simp [h]

/-- Setting `_OPEN` twice is setting it once. -/
theorem or_four_idem (s : Nat) : (s ||| 4) ||| 4 = s ||| 4 := by
  rw [Nat.or_assoc, Nat.or_self]

/-- A state keeps to three bits when `_OPEN` is set. -/
theorem or_four_lt_eight {s : Nat} (h : s < 8) : s ||| 4 < 8 := by
  interval_cases s <;> decide

/-- The `_MINE` bit is one bit. -/
theorem and_one_cases (s : Nat) : s &&& 1 = 0 ∨ s &&& 1 = 1 := by
  rw [Nat.and_one_is_mod]; omega

/-! ## Lookup and update on the grid association list -/

theorem lookupG_setG_eq (g : Grid) (p : Pos) (v : Nat) :
    lookupG (setG g p v) p = (lookupG g p).map (fun _ => v) := by
  induction g with
  | nil => rfl
  | cons e rest ih =>
    by_cases h : e.1 = p
    · simp [setG, lookupG, h]
    · simp only [setG, List.map_cons, if_neg h, lookupG] at ih ⊢
      exact ih

theorem lookupG_setG_ne (g : Grid) {p q : Pos} (v : Nat) (h : q ≠ p) :
    lookupG (setG g p v) q = lookupG g q := by
  induction g with
  | nil => rfl
  | cons e rest ih =>
    simp only [setG, List.map_cons] at ih ⊢
    by_cases he : e.1 = p
    · have h1 : ¬ (p = q) := fun hh => h hh.symm
      have h2 : ¬ (e.1 = q) := fun hh => h1 (he.symm.trans hh)
      rw [if_pos he]
      simp only [lookupG, if_neg h1, if_neg h2]
      exact ih
    · rw [if_neg he]
      by_cases heq : e.1 = q
      · simp only [lookupG, if_pos heq]
      · simp only [lookupG, if_neg heq]
        exact ih

theorem setG_keys (g : Grid) (p : Pos) (v : Nat) :
    (setG g p v).map Prod.fst = g.map Prod.fst := by
  induction g with
  | nil => rfl
  | cons e rest ih =>
    by_cases h : e.1 = p <;> simp [setG, List.map_cons, h] at ih ⊢ <;> exact ih

theorem lookupG_isSome_iff (g : Grid) (q : Pos) :
    (lookupG g q).isSome ↔ q ∈ g.map Prod.fst := by
  induction g with
  | nil => simp [lookupG]
  | cons e rest ih =>
    by_cases h : e.1 = q <;> simp [lookupG, h, ih]
    exact fun hq => (h hq.symm).elim

theorem lookupG_mem {g : Grid} {p : Pos} {s : Nat} (h : lookupG g p = some s) :
    (p, s) ∈ g := by
  induction g with
  | nil => simp [lookupG] at h
  | cons e rest ih =>
    by_cases he : e.1 = p
    · simp only [lookupG, if_pos he, Option.some.injEq] at h
      have : e = (p, s) := by
        cases e
        simp only [Prod.mk.injEq]
        exact ⟨he, h⟩
      rw [← this]
      exact List.mem_cons_self e rest
    · simp only [lookupG, if_neg he] at h
      exact List.mem_cons_of_mem _ (ih h)

theorem lookupG_none_of_map {g : Grid} {p : Pos} (h : p ∉ g.map Prod.fst) :
    lookupG g p = none := by
  cases hl : lookupG g p with
  | none => rfl
  | some s => exact absurd ((lookupG_isSome_iff g p).1 (by simp [hl])) h

/-! ## The flood-fill measure -/

theorem closedCount_eq (b : MineSweeperBoard) : closedCount b = closedCountG b.grid := rfl

theorem closedCountG_setG_le (g : Grid) (p : Pos) (s : Nat) :
    closedCountG (setG g p (s ||| 4)) ≤ closedCountG g := by
  unfold closedCountG setG
  rw [List.countP_map]
  apply List.countP_mono_left
  intro e _ he
  by_cases h : e.1 = p
  · exfalso
    simp [h, or_four_and_four] at he
  · simpa [h] using he

theorem closedCountG_setG_lt {g : Grid} {p : Pos} {s : Nat}
    (hl : lookupG g p = some s) (hc : s &&& 4 = 0) :
    closedCountG (setG g p (s ||| 4)) < closedCountG g := by
  induction g with
  | nil => simp [lookupG] at hl
  | cons e rest ih =>
    have hle := closedCountG_setG_le rest p s
    simp only [closedCountG, setG, List.map_cons, List.countP_cons] at hle ⊢
    by_cases h : e.1 = p
    · simp only [lookupG, if_pos h, Option.some.injEq] at hl
      rw [if_pos h]
      have h1 : ((p, s ||| 4).2 &&& 4 == 0) = false := by
        simp [or_four_and_four]
      have h2 : (e.2 &&& 4 == 0) = true := by
        simp [hl, hc]
      rw [h1, h2]
      simp only [Bool.false_eq_true, if_false, if_true]
      omega
    · simp only [lookupG, if_neg h] at hl
      have hlt := ih hl
      simp only [closedCountG, setG] at hlt
      rw [if_neg h]
      omega

/-! ## Neighbour enumeration facts -/

theorem mem_get_neighbors {cols lines : Int} {q r : Pos} :
    r ∈ get_neighbors cols lines q ↔
      (∃ d ∈ neighborOffsets, r = (q.1 + d.2, q.2 + d.1)) ∧
      0 ≤ r.1 ∧ r.1 < cols ∧ 0 ≤ r.2 ∧ r.2 < lines := by
  constructor
  · intro h
    rw [get_neighbors, List.mem_filterMap] at h
    obtain ⟨d, hd, hr⟩ := h
    by_cases hb : 0 ≤ q.1 + d.2 ∧ q.1 + d.2 < cols ∧ 0 ≤ q.2 + d.1 ∧ q.2 + d.1 < lines
    · rw [if_pos hb] at hr
      cases hr
      exact ⟨⟨d, hd, rfl⟩, hb.1, hb.2.1, hb.2.2.1, hb.2.2.2⟩
    · rw [if_neg hb] at hr
      cases hr
  · rintro ⟨⟨d, hd, hr⟩, h1, h2, h3, h4⟩
    rw [get_neighbors, List.mem_filterMap]
    refine ⟨d, hd, ?_⟩
    subst hr
    rw [if_pos ⟨h1, h2, h3, h4⟩]

theorem get_neighbors_ne {cols lines : Int} {q r : Pos}
    (h : r ∈ get_neighbors cols lines q) : r ≠ q := by
  obtain ⟨⟨d, hd, hr⟩, -⟩ := mem_get_neighbors.1 h
  intro hc
  subst hc
  have h1 := congrArg Prod.fst hr
  have h2 := congrArg Prod.snd hr
  fin_cases hd <;> simp at h1 h2

theorem mem_intRange {n x : Int} : x ∈ intRange n ↔ 0 ≤ x ∧ x < n := by
  constructor
  · intro hx
    rw [intRange, List.mem_map] at hx
    obtain ⟨i, hi, rfl⟩ := hx
    rw [List.mem_range] at hi
    omega
  · rintro ⟨h1, h2⟩
    rw [intRange, List.mem_map]
    refine ⟨x.toNat, ?_, by omega⟩
    rw [List.mem_range]
    omega

theorem mem_allPositions {cols lines : Int} {q : Pos} :
    q ∈ allPositions cols lines ↔ 0 ≤ q.1 ∧ q.1 < cols ∧ 0 ≤ q.2 ∧ q.2 < lines := by
  rw [allPositions]
  simp only [List.mem_flatMap, List.mem_map, mem_intRange]
  constructor
  · rintro ⟨x, hx, y, hy, rfl⟩
    exact ⟨hx.1, hx.2, hy.1, hy.2⟩
  · rintro ⟨h1, h2, h3, h4⟩
    exact ⟨q.1, ⟨h1, h2⟩, q.2, ⟨h3, h4⟩, Prod.mk.eta⟩

theorem get_neighbors_inBounds {cols lines : Int} {q r : Pos}
    (h : r ∈ get_neighbors cols lines q) : r ∈ allPositions cols lines := by
  obtain ⟨-, h1, h2, h3, h4⟩ := mem_get_neighbors.1 h
  exact mem_allPositions.2 ⟨h1, h2, h3, h4⟩

/-! ## `minesNearby` versus the pure hint value -/

theorem mineBit_some {g : Grid} {r : Pos} {s : Nat} (hs : lookupG g r = some s) :
    mineBit g r = (s &&& 1 == 1) := by
  rw [mineBit, hs, Option.getD_some]

theorem minesNearby_some {g : Grid} {l : List Pos}
    (h : ∀ r ∈ l, (lookupG g r).isSome) :
    minesNearby g l = some ((l.filter (mineBit g)).length) := by
  induction l with
  | nil => rfl
  | cons r rest ih =>
    have hr := h r (List.mem_cons_self r rest)
    obtain ⟨s, hs⟩ := Option.isSome_iff_exists.1 hr
    have hrest := ih (fun x hx => h x (List.mem_cons_of_mem r hx))
    rw [minesNearby, hs, hrest]
    show some ((if s &&& 1 = 1 then 1 else 0) + (rest.filter (mineBit g)).length) = _
    by_cases hm : s &&& 1 = 1
    · have hb : mineBit g r = true := by
        rw [mineBit_some hs, hm]
        rfl
      rw [if_pos hm, List.filter_cons, if_pos hb]
      simp [Nat.add_comm]
    · have hb : mineBit g r = false := by
        rw [mineBit_some hs]
        exact beq_eq_false_iff_ne.2 hm
      rw [if_neg hm, List.filter_cons, if_neg (by rw [hb]; exact Bool.false_ne_true)]
      simp

theorem minesNearby_isSome {g : Grid} {l : List Pos} {m : Nat}
    (h : minesNearby g l = some m) : ∀ r ∈ l, (lookupG g r).isSome := by
  induction l generalizing m with
  | nil => simp
  | cons r rest ih =>
    intro x hx
    rw [minesNearby] at h
    cases hr : lookupG g r with
    | none => rw [hr] at h; cases h
    | some s =>
      rw [hr] at h
      cases hrest : minesNearby g rest with
      | none => rw [hrest] at h; cases h
      | some m' =>
        rcases List.mem_cons.1 hx with rfl | hx'
        · simp [hr]
        · exact ih hrest x hx'

theorem minesNearby_val {g : Grid} {l : List Pos} {m : Nat}
    (h : minesNearby g l = some m) : m = (l.filter (mineBit g)).length := by
  have := minesNearby_some (minesNearby_isSome h)
  rw [this] at h
  exact (Option.some.injEq _ _ ▸ h).symm

theorem minesNearby_zero {g : Grid} {l : List Pos}
    (h : minesNearby g l = some 0) :
    ∀ r ∈ l, ∃ t, lookupG g r = some t ∧ t &&& 1 = 0 := by
  intro r hr
  have hsome := minesNearby_isSome h r hr
  obtain ⟨t, ht⟩ := Option.isSome_iff_exists.1 hsome
  refine ⟨t, ht, ?_⟩
  have hval := minesNearby_val h
  have hnil : l.filter (mineBit g) = [] :=
    List.length_eq_zero.1 hval.symm
  rcases and_one_cases t with h0 | h1
  · exact h0
  · exfalso
    have : r ∈ l.filter (mineBit g) :=
      List.mem_filter.2 ⟨hr, by simp [mineBit, ht, h1]⟩
    rw [hnil] at this
    cases this

/-! ## The evolution relation -/

theorem evolves_refl (a : MineSweeperBoard) : Evolves a a :=
  ⟨rfl, rfl, rfl, rfl, fun _ => Or.inl rfl⟩

theorem evolves_trans {a c e : MineSweeperBoard} (h1 : Evolves a c) (h2 : Evolves c e) :
    Evolves a e := by
  obtain ⟨c1, c2, c3, c4, c5⟩ := h1
  obtain ⟨e1, e2, e3, e4, e5⟩ := h2
  refine ⟨e1.trans c1, e2.trans c2, e3.trans c3, e4.trans c4, fun q => ?_⟩
  rcases e5 q with he | ⟨s, hs1, hs2⟩
  · rw [he]
    exact c5 q
  · rcases c5 q with hc | ⟨t, ht1, ht2⟩
    · rw [hc] at hs1
      exact Or.inr ⟨s, hs1, hs2⟩
    · rw [ht2] at hs1
      cases hs1
      refine Or.inr ⟨t, ht1, ?_⟩
      rw [hs2, or_four_idem]

theorem evolves_openAt {a c : MineSweeperBoard} (h : Evolves a c) {q : Pos}
    (ho : openAt a.grid q) : openAt c.grid q := by
  obtain ⟨s, hs, hbit⟩ := ho
  rcases h.2.2.2.2 q with he | ⟨t, ht1, ht2⟩
  · exact ⟨s, he.trans hs, hbit⟩
  · rw [hs] at ht1
    cases ht1
    exact ⟨s ||| 4, ht2, by rw [or_four_and_four]; omega⟩

theorem evolves_mineBit {a c : MineSweeperBoard} (h : Evolves a c) (q : Pos) :
    mineBit c.grid q = mineBit a.grid q := by
  rcases h.2.2.2.2 q with he | ⟨t, ht1, ht2⟩
  · rw [mineBit, mineBit, he]
  · rw [mineBit_some ht2, mineBit_some ht1, or_four_and_one]

theorem evolves_flaggedAt {a c : MineSweeperBoard} (h : Evolves a c) (q : Pos) :
    flaggedAt c.grid q ↔ flaggedAt a.grid q := by
  rcases h.2.2.2.2 q with he | ⟨t, ht1, ht2⟩
  · rw [flaggedAt, flaggedAt, he]
  · constructor
    · rintro ⟨s, hs, hbit⟩
      rw [ht2] at hs
      cases hs
      rw [or_four_and_two] at hbit
      exact ⟨t, ht1, hbit⟩
    · rintro ⟨s, hs, hbit⟩
      rw [ht1] at hs
      cases hs
      exact ⟨t ||| 4, ht2, by rw [or_four_and_two]; exact hbit⟩

theorem evolves_mineFreeAt {a c : MineSweeperBoard} (h : Evolves a c) (q : Pos) :
    mineFreeAt c.grid q ↔ mineFreeAt a.grid q := by
  rcases h.2.2.2.2 q with he | ⟨t, ht1, ht2⟩
  · rw [mineFreeAt, mineFreeAt, he]
  · constructor
    · intro hf s hs
      rw [ht1] at hs
      cases hs
      have := hf (t ||| 4) ht2
      rw [or_four_and_one] at this
      exact this
    · intro hf s hs
      rw [ht2] at hs
      cases hs
      rw [or_four_and_one]
      exact hf t ht1

theorem evolves_hintVal {a c : MineSweeperBoard} (h : Evolves a c)
    (cols lines : Int) (q : Pos) :
    hintVal cols lines c.grid q = hintVal cols lines a.grid q := by
  rw [hintVal, hintVal]
  rw [List.filter_congr (fun r _ => evolves_mineBit h r)]

theorem evolves_isSome {a c : MineSweeperBoard} (h : Evolves a c) (q : Pos) :
    (lookupG c.grid q).isSome = (lookupG a.grid q).isSome := by
  rcases h.2.2.2.2 q with he | ⟨t, ht1, ht2⟩
  · rw [he]
  · rw [ht1, ht2]
    rfl

theorem evolves_WF {a c : MineSweeperBoard} (h : Evolves a c) (hw : WFgrid a) :
    WFgrid c := by
  intro q hq
  rw [h.1, h.2.1] at hq
  rw [evolves_isSome h]
  exact hw q hq

/-! ## Branch-by-branch unfolding of `actionF` -/

theorem actionF_keyError {b : MineSweeperBoard} {p : Pos} (n : Nat) (fl : Bool)
    (h : lookupG b.grid p = none) : actionF n b p fl = none := by
  cases n with
  | zero => rfl
  | succ n => simp [actionF, h]

theorem actionF_exact_open {n : Nat} {b : MineSweeperBoard} {p : Pos} (fl : Bool)
    (h : lookupG b.grid p = some 4) : actionF (n + 1) b p fl = some b := by
  simp [actionF, h]

theorem actionF_flag_branch {n : Nat} {b : MineSweeperBoard} {p : Pos} {s : Nat}
    (h : lookupG b.grid p = some s) (h4 : s ≠ 4) :
    actionF (n + 1) b p true = some (flagOp b p s) := by
  simp [actionF, h, h4]

theorem actionF_flagged_noop {n : Nat} {b : MineSweeperBoard} {p : Pos} {s : Nat}
    (h : lookupG b.grid p = some s) (h4 : s ≠ 4) (h2 : s &&& 2 = 2) :
    actionF (n + 1) b p false = some b := by
  simp [actionF, h, h4, h2]

theorem actionF_mine_reveal {n : Nat} {b : MineSweeperBoard} {p : Pos}
    (h : lookupG b.grid p = some 1) :
    actionF (n + 1) b p false = some (openCell b p 1) := by
  simp [actionF, h]

theorem actionF_reveal_mnone {n : Nat} {b : MineSweeperBoard} {p : Pos} {s : Nat}
    (h : lookupG b.grid p = some s) (h4 : s ≠ 4) (h2 : ¬ s &&& 2 = 2) (h1 : s ≠ 1)
    (hm : minesNearby (setG b.grid p (s ||| 4)) (get_neighbors b.cols b.lines p) = none) :
    actionF (n + 1) b p false = none := by
  simp [actionF, openCell, h, h4, h2, h1, hm]

theorem actionF_reveal_stop {n : Nat} {b : MineSweeperBoard} {p : Pos} {s m : Nat}
    (h : lookupG b.grid p = some s) (h4 : s ≠ 4) (h2 : ¬ s &&& 2 = 2) (h1 : s ≠ 1)
    (hm : minesNearby (setG b.grid p (s ||| 4)) (get_neighbors b.cols b.lines p) = some m)
    (hm0 : m ≠ 0) :
    actionF (n + 1) b p false = some (hintBoard b p s m) := by
  simp [actionF, openCell, revealStep, hintBoard, h, h4, h2, h1, hm, hm0]

theorem actionF_reveal_cascade {n : Nat} {b : MineSweeperBoard} {p : Pos} {s : Nat}
    (h : lookupG b.grid p = some s) (h4 : s ≠ 4) (h2 : ¬ s &&& 2 = 2) (h1 : s ≠ 1)
    (hm : minesNearby (setG b.grid p (s ||| 4)) (get_neighbors b.cols b.lines p) = some 0) :
    actionF (n + 1) b p false =
      actionsF n (hintBoard b p s 0) (get_neighbors b.cols b.lines p) := by
  simp [actionF, actionsF, openCell, revealStep, hintBoard, h, h4, h2, h1, hm]

theorem actionsF_nil (n : Nat) (b : MineSweeperBoard) : actionsF n b [] = some b := rfl

theorem actionsF_cons (n : Nat) (b : MineSweeperBoard) (r : Pos) (rest : List Pos) :
    actionsF n b (r :: rest) =
      (actionF n b r false).bind (fun m => actionsF n m rest) := by
  cases h : actionF n b r false <;> simp [actionsF, List.foldlM_cons, h]

/-! ## Chaining the flood-fill loop -/

theorem actionsF_chain {P : MineSweeperBoard → MineSweeperBoard → Prop}
    (Prefl : ∀ x, P x x)
    (Ptrans : ∀ {x y z}, P x y → P y z → P x z)
    (n : Nat) (l : List Pos) :
    ∀ b b', actionsF n b l = some b' →
      (∀ r ∈ l, ∀ x y, P b x → actionF n x r false = some y → P x y) →
      P b b' := by
  induction l with
  | nil =>
    intro b b' h _
    rw [actionsF_nil] at h
    cases h
    exact Prefl b
  | cons r rest ih =>
    intro b b' h hstep
    rw [actionsF_cons] at h
    cases hm : actionF n b r false with
    | none =>
      rw [hm] at h
      cases h
    | some m =>
      rw [hm] at h
      have hbm : P b m := hstep r (List.mem_cons_self r rest) b m (Prefl b) hm
      have hmb : P m b' := by
        refine ih m b' h ?_
        intro r' hr' x y hmx hxy
        exact hstep r' (List.mem_cons_of_mem _ hr') x y (Ptrans hbm hmx) hxy
      exact Ptrans hbm hmb

/-! ## The preservation pack -/

/-- The conjunction preserved by every recursive call of a non-flagging
`action`. -/
def Pack (x y : MineSweeperBoard) : Prop :=
  Evolves x y ∧ closedCount y ≤ closedCount x ∧ (ValidStates x → ValidStates y)

theorem pack_refl (x : MineSweeperBoard) : Pack x x :=
  ⟨evolves_refl x, le_refl _, id⟩

theorem pack_trans {x y z : MineSweeperBoard} (h1 : Pack x y) (h2 : Pack y z) :
    Pack x z :=
  ⟨evolves_trans h1.1 h2.1, h2.2.1.trans h1.2.1, fun hv => h2.2.2 (h1.2.2 hv)⟩

/-- The pack across the grid update `self[position] |= _OPEN`, for any board
`c` sharing everything the pack watches with that update of `b`. -/
theorem pack_setG {b c : MineSweeperBoard} {p : Pos} {s : Nat}
    (hg : c.grid = setG b.grid p (s ||| 4))
    (hc : c.cols = b.cols) (hl2 : c.lines = b.lines) (hs : c.safe_cells = b.safe_cells)
    (hlk : lookupG b.grid p = some s) : Pack b c := by
  refine ⟨⟨hc, hl2, hs, ?_, ?_⟩, ?_, ?_⟩
  · rw [hg]
    exact setG_keys b.grid p (s ||| 4)
  · intro q
    by_cases hqp : q = p
    · subst hqp
      rw [hg, lookupG_setG_eq, hlk]
      exact Or.inr ⟨s, rfl, rfl⟩
    · rw [hg, lookupG_setG_ne _ _ hqp]
      exact Or.inl rfl
  · rw [closedCount_eq, closedCount_eq, hg]
    exact closedCountG_setG_le b.grid p s
  · intro hv e he
    rw [hg, setG, List.mem_map] at he
    obtain ⟨e0, he0, rfl⟩ := he
    by_cases h0 : e0.1 = p
    · rw [if_pos h0]
      have hs8 : s < 8 := hv (p, s) (lookupG_mem hlk)
      exact or_four_lt_eight hs8
    · rw [if_neg h0]
      exact hv e0 he0

theorem actionF_pack : ∀ {n : Nat} {b : MineSweeperBoard} {p : Pos} {b' : MineSweeperBoard},
    actionF n b p false = some b' → Pack b b' := by
  intro n
  induction n with
  | zero =>
    intro b p b' h
    cases h
  | succ n ih =>
    intro b p b' h
    cases hl : lookupG b.grid p with
    | none =>
      rw [actionF_keyError (n + 1) false hl] at h
      cases h
    | some s =>
      by_cases h4 : s = 4
      · subst h4
        rw [actionF_exact_open false hl] at h
        cases h
        exact pack_refl b
      by_cases h2 : s &&& 2 = 2
      · rw [actionF_flagged_noop hl h4 h2] at h
        cases h
        exact pack_refl b
      by_cases h1 : s = 1
      · subst h1
        rw [actionF_mine_reveal hl] at h
        cases h
        exact pack_setG rfl rfl rfl rfl hl
      cases hm : minesNearby (setG b.grid p (s ||| 4)) (get_neighbors b.cols b.lines p) with
      | none =>
        rw [actionF_reveal_mnone hl h4 h2 h1 hm] at h
        cases h
      | some m =>
        by_cases hm0 : m = 0
        · subst hm0
          rw [actionF_reveal_cascade hl h4 h2 h1 hm] at h
          have hfirst : Pack b (hintBoard b p s 0) := pack_setG rfl rfl rfl rfl hl
          have hrest : Pack (hintBoard b p s 0) b' := by
            refine actionsF_chain pack_refl (fun {x y z} => pack_trans) n _ _ _ h ?_
            intro r _ x y _ hxy
            exact ih hxy
          exact pack_trans hfirst hrest
        · rw [actionF_reveal_stop hl h4 h2 h1 hm hm0] at h
          cases h
          exact pack_setG rfl rfl rfl rfl hl

/-! ## Fuel stability -/

theorem hintBoard_grid (b : MineSweeperBoard) (p : Pos) (s m : Nat) :
    (hintBoard b p s m).grid = setG b.grid p (s ||| 4) := rfl

theorem hintBoard_cols (b : MineSweeperBoard) (p : Pos) (s m : Nat) :
    (hintBoard b p s m).cols = b.cols := rfl

theorem hintBoard_lines (b : MineSweeperBoard) (p : Pos) (s m : Nat) :
    (hintBoard b p s m).lines = b.lines := rfl

theorem hintBoard_closedCount (b : MineSweeperBoard) (p : Pos) (s m : Nat) :
    closedCount (hintBoard b p s m) = closedCountG (setG b.grid p (s ||| 4)) := rfl

theorem actionsF_congr {C : MineSweeperBoard → Prop} (n : Nat) (l : List Pos)
    (hstep : ∀ r ∈ l, ∀ x, C x → actionF n x r false = actionF (n + 1) x r false)
    (hpres : ∀ r ∈ l, ∀ x y, C x → actionF n x r false = some y → C y) :
    ∀ b, C b → actionsF n b l = actionsF (n + 1) b l := by
  induction l with
  | nil =>
    intro b _
    rfl
  | cons r rest ih =>
    intro b hb
    rw [actionsF_cons, actionsF_cons, ← hstep r (List.mem_cons_self r rest) b hb]
    cases hm : actionF n b r false with
    | none => rfl
    | some m =>
      have hcm : C m := hpres r (List.mem_cons_self r rest) b m hb hm
      have := ih (fun r' hr' x hx => hstep r' (List.mem_cons_of_mem _ hr') x hx)
        (fun r' hr' x y hx hxy => hpres r' (List.mem_cons_of_mem _ hr') x y hx hxy) m hcm
      simp only [Option.some_bind]
      exact this

theorem actionsF_total {C : MineSweeperBoard → Prop} (n : Nat) (l : List Pos)
    (hstep : ∀ r ∈ l, ∀ x, C x → ∃ y, actionF n x r false = some y)
    (hpres : ∀ r ∈ l, ∀ x y, C x → actionF n x r false = some y → C y) :
    ∀ b, C b → ∃ b', actionsF n b l = some b' ∧ C b' := by
  induction l with
  | nil =>
    intro b hb
    exact ⟨b, rfl, hb⟩
  | cons r rest ih =>
    intro b hb
    obtain ⟨m, hm⟩ := hstep r (List.mem_cons_self r rest) b hb
    have hcm : C m := hpres r (List.mem_cons_self r rest) b m hb hm
    obtain ⟨b', hb', hcb'⟩ := ih (fun r' hr' x hx => hstep r' (List.mem_cons_of_mem _ hr') x hx)
      (fun r' hr' x y hx hxy => hpres r' (List.mem_cons_of_mem _ hr') x y hx hxy) m hcm
    refine ⟨b', ?_, hcb'⟩
    rw [actionsF_cons, hm, Option.some_bind]
    exact hb'

/-- Cell states that pass the dispatch tests of a non-flagging `action` and
reach the cascade are `_SAFE` or `_OPEN_MINE`. -/
theorem cascade_state_cases {s : Nat} (hs8 : s < 8) (h4 : s ≠ 4)
    (h2 : ¬ s &&& 2 = 2) (h1 : s ≠ 1) : s = 0 ∨ s = 5 := by
  interval_cases s <;> revert h4 h2 h1 <;> decide

theorem actionF_step : ∀ (n : Nat) (b : MineSweeperBoard) (p : Pos) (fl : Bool),
    ValidStates b → 2 * closedCount b + 2 ≤ n →
    (lookupG b.grid p = some 5 → 2 * closedCount b + 4 ≤ n) →
    actionF n b p fl = actionF (n + 1) b p fl := by
  intro n
  induction n with
  | zero =>
    intro b p fl _ hb _
    omega
  | succ k ih =>
    intro b p fl hv hb h5
    cases hl : lookupG b.grid p with
    | none =>
      rw [actionF_keyError (k + 1) fl hl, actionF_keyError (k + 2) fl hl]
    | some s =>
      have hs8 : s < 8 := hv _ (lookupG_mem hl)
      by_cases h4 : s = 4
      · subst h4
        rw [actionF_exact_open fl hl, actionF_exact_open fl hl]
      cases fl with
      | true =>
        rw [actionF_flag_branch hl h4, actionF_flag_branch hl h4]
      | false =>
        by_cases h2 : s &&& 2 = 2
        · rw [actionF_flagged_noop hl h4 h2, actionF_flagged_noop hl h4 h2]
        by_cases h1 : s = 1
        · subst h1
          rw [actionF_mine_reveal hl, actionF_mine_reveal hl]
        cases hm : minesNearby (setG b.grid p (s ||| 4)) (get_neighbors b.cols b.lines p) with
        | none =>
          rw [actionF_reveal_mnone hl h4 h2 h1 hm, actionF_reveal_mnone hl h4 h2 h1 hm]
        | some m =>
          by_cases hm0 : m = 0
          · subst hm0
            rw [actionF_reveal_cascade hl h4 h2 h1 hm, actionF_reveal_cascade hl h4 h2 h1 hm]
            have hpk : Pack b (hintBoard b p s 0) := pack_setG rfl rfl rfl rfl hl
            have hM : 2 * closedCount (hintBoard b p s 0) + 2 ≤ k := by
              rcases cascade_state_cases hs8 h4 h2 h1 with h0 | h05
              · have : closedCount (hintBoard b p s 0) < closedCount b := by
                  rw [hintBoard_closedCount, closedCount_eq]
                  exact closedCountG_setG_lt hl (by rw [h0]; decide)
                omega
              · have h5' := h5 (by rw [hl, h05])
                have := hpk.2.1
                omega
            have hmf : ∀ r ∈ get_neighbors b.cols b.lines p,
                ∃ t, lookupG (hintBoard b p s 0).grid r = some t ∧ t &&& 1 = 0 := by
              rw [hintBoard_grid]
              exact minesNearby_zero hm
            refine actionsF_congr (C := fun x => ValidStates x ∧ 2 * closedCount x + 2 ≤ k ∧
              ∀ r ∈ get_neighbors b.cols b.lines p,
                ∃ t, lookupG x.grid r = some t ∧ t &&& 1 = 0) k _ ?_ ?_ _
              ⟨hpk.2.2 hv, hM, hmf⟩
            · intro r hr x hx
              refine ih x r false hx.1 hx.2.1 ?_
              intro hx5
              obtain ⟨t, ht, htm⟩ := hx.2.2 r hr
              rw [ht] at hx5
              cases hx5
              simp at htm
            · intro r hr x y hx hxy
              have hp := actionF_pack hxy
              refine ⟨hp.2.2 hx.1, by have := hp.2.1; omega, ?_⟩
              intro r' hr'
              obtain ⟨t, ht, htm⟩ := hx.2.2 r' hr'
              rcases hp.1.2.2.2.2 r' with he | ⟨u, hu1, hu2⟩
              · exact ⟨t, he.trans ht, htm⟩
              · rw [ht] at hu1
                cases hu1
                exact ⟨t ||| 4, hu2, by rw [or_four_and_one]; exact htm⟩
          · rw [actionF_reveal_stop hl h4 h2 h1 hm hm0, actionF_reveal_stop hl h4 h2 h1 hm hm0]

theorem isSome_setG (g : Grid) (p : Pos) (v : Nat) (q : Pos) :
    (lookupG (setG g p v) q).isSome = (lookupG g q).isSome := by
  by_cases hq : q = p
  · subst hq
    rw [lookupG_setG_eq]
    cases lookupG g q <;> rfl
  · rw [lookupG_setG_ne _ _ hq]

theorem actionF_suff : ∀ (n : Nat) (b : MineSweeperBoard) (p : Pos) (fl : Bool),
    ValidStates b → WFgrid b → (lookupG b.grid p).isSome →
    2 * closedCount b + 2 ≤ n →
    (lookupG b.grid p = some 5 → 2 * closedCount b + 4 ≤ n) →
    ∃ b', actionF n b p fl = some b' := by
  intro n
  induction n with
  | zero =>
    intro b p fl _ _ _ hb _
    omega
  | succ k ih =>
    intro b p fl hv hw hp hb h5
    cases hl : lookupG b.grid p with
    | none =>
      rw [hl] at hp
      cases hp
    | some s =>
      have hs8 : s < 8 := hv _ (lookupG_mem hl)
      by_cases h4 : s = 4
      · subst h4
        exact ⟨b, actionF_exact_open fl hl⟩
      cases fl with
      | true => exact ⟨flagOp b p s, actionF_flag_branch hl h4⟩
      | false =>
        by_cases h2 : s &&& 2 = 2
        · exact ⟨b, actionF_flagged_noop hl h4 h2⟩
        by_cases h1 : s = 1
        · subst h1
          exact ⟨openCell b p 1, actionF_mine_reveal hl⟩
        have hnbrs : ∀ r ∈ get_neighbors b.cols b.lines p,
            (lookupG (setG b.grid p (s ||| 4)) r).isSome := by
          intro r hr
          rw [isSome_setG]
          exact hw r (get_neighbors_inBounds hr)
        cases hm : minesNearby (setG b.grid p (s ||| 4)) (get_neighbors b.cols b.lines p) with
        | none =>
          rw [minesNearby_some hnbrs] at hm
          cases hm
        | some m =>
          by_cases hm0 : m = 0
          · subst hm0
            rw [actionF_reveal_cascade hl h4 h2 h1 hm]
            have hpk : Pack b (hintBoard b p s 0) := pack_setG rfl rfl rfl rfl hl
            have hM : 2 * closedCount (hintBoard b p s 0) + 2 ≤ k := by
              rcases cascade_state_cases hs8 h4 h2 h1 with h0 | h05
              · have : closedCount (hintBoard b p s 0) < closedCount b := by
                  rw [hintBoard_closedCount, closedCount_eq]
                  exact closedCountG_setG_lt hl (by rw [h0]; decide)
                omega
              · have h5' := h5 (by rw [hl, h05])
                have := hpk.2.1
                omega
            have hmf : ∀ r ∈ get_neighbors b.cols b.lines p,
                ∃ t, lookupG (hintBoard b p s 0).grid r = some t ∧ t &&& 1 = 0 := by
              rw [hintBoard_grid]
              exact minesNearby_zero hm
            have hwk : WFgrid (hintBoard b p s 0) := evolves_WF hpk.1 hw
            have hstep' : ∀ r ∈ get_neighbors b.cols b.lines p, ∀ x,
                (ValidStates x ∧ WFgrid x ∧ 2 * closedCount x + 2 ≤ k ∧
                  ∀ r ∈ get_neighbors b.cols b.lines p,
                    ∃ t, lookupG x.grid r = some t ∧ t &&& 1 = 0) →
                ∃ y, actionF k x r false = some y := by
              intro r hr x hx
              obtain ⟨t, ht, htm⟩ := hx.2.2.2 r hr
              refine ih x r false hx.1 hx.2.1 (by rw [ht]; rfl) hx.2.2.1 ?_
              intro hx5
              rw [ht] at hx5
              cases hx5
              simp at htm
            have hpres' : ∀ r ∈ get_neighbors b.cols b.lines p, ∀ x y,
                (ValidStates x ∧ WFgrid x ∧ 2 * closedCount x + 2 ≤ k ∧
                  ∀ r ∈ get_neighbors b.cols b.lines p,
                    ∃ t, lookupG x.grid r = some t ∧ t &&& 1 = 0) →
                actionF k x r false = some y →
                (ValidStates y ∧ WFgrid y ∧ 2 * closedCount y + 2 ≤ k ∧
                  ∀ r ∈ get_neighbors b.cols b.lines p,
                    ∃ t, lookupG y.grid r = some t ∧ t &&& 1 = 0) := by
              intro r hr x y hx hxy
              have hp' := actionF_pack hxy
              refine ⟨hp'.2.2 hx.1, evolves_WF hp'.1 hx.2.1,
                by have := hp'.2.1; omega, ?_⟩
              intro r' hr'
              obtain ⟨t, ht, htm⟩ := hx.2.2.2 r' hr'
              rcases hp'.1.2.2.2.2 r' with he | ⟨u, hu1, hu2⟩
              · exact ⟨t, he.trans ht, htm⟩
              · rw [ht] at hu1
                cases hu1
                exact ⟨t ||| 4, hu2, by rw [or_four_and_one]; exact htm⟩
            obtain ⟨b', hb', -⟩ := actionsF_total k _ hstep' hpres'
              (hintBoard b p s 0) ⟨hpk.2.2 hv, hwk, hM, hmf⟩
            exact ⟨b', hb'⟩
          · exact ⟨hintBoard b p s m, actionF_reveal_stop hl h4 h2 h1 hm hm0⟩

theorem actionF_stable (b : MineSweeperBoard) (p : Pos) (fl : Bool)
    (hv : ValidStates b) :
    ∀ n, fuelBound b ≤ n → actionF n b p fl = action b p fl := by
  have key : ∀ k, actionF (fuelBound b + k) b p fl = action b p fl := by
    intro k
    induction k with
    | zero => rfl
    | succ k ih =>
      rw [← ih]
      have hstep := actionF_step (fuelBound b + k) b p fl hv
        (by simp only [fuelBound]; omega) (fun _ => by simp only [fuelBound]; omega)
      rw [show fuelBound b + (k + 1) = (fuelBound b + k) + 1 from rfl]
      exact hstep.symm
  intro n hn
  rw [show n = fuelBound b + (n - fuelBound b) by omega]
  exact key _

/-- C8: on every board of the spec's data model (each packed cell state is
a bitset over `_MINE/_FLAGGED/_OPEN`, i.e. `< 8`) and at every position,
`action(p, flag)` terminates: the fueled embedding is stable from fuel
`fuelBound b = 2 * closedCount b + 4` on — the recursion never needs more
nested calls than that, because already-open cells are no-ops and each
recursive reveal opens a previously-closed cell of the finite grid — and on a
well-formed grid with `p` present the call returns normally. -/
theorem action_terminates (b : MineSweeperBoard) (p : Pos) (fl : Bool)
    (hv : ValidStates b) :
    (∀ n, fuelBound b ≤ n → actionF n b p fl = action b p fl) ∧
    (WFgrid b → (lookupG b.grid p).isSome → ∃ b', action b p fl = some b') := by
  constructor
  · exact actionF_stable b p fl hv
  · intro hw hp
    exact actionF_suff (fuelBound b) b p fl hv hw hp (by simp only [fuelBound]; omega)
      (fun _ => by simp only [fuelBound]; omega)

theorem action_terminates_witness :
    (∀ n, fuelBound (randomBoard 2 2 [((0 : Int), (0 : Int))] 1) ≤ n →
      actionF n (randomBoard 2 2 [((0 : Int), (0 : Int))] 1) (1, 1) false =
        action (randomBoard 2 2 [((0 : Int), (0 : Int))] 1) (1, 1) false) ∧
    (WFgrid (randomBoard 2 2 [((0 : Int), (0 : Int))] 1) →
      (lookupG (randomBoard 2 2 [((0 : Int), (0 : Int))] 1).grid (1, 1)).isSome →
      ∃ b', action (randomBoard 2 2 [((0 : Int), (0 : Int))] 1) (1, 1) false = some b') :=
  action_terminates (randomBoard 2 2 [((0 : Int), (0 : Int))] 1) (1, 1) false (by decide)

/-! ## Soundness of the cascade: only reachable cells get opened -/

theorem reach_trans {cols lines : Int} {hint : Pos → Nat} {c r q : Pos}
    (h1 : Reach cols lines hint c r) (h2 : Reach cols lines hint r q) :
    Reach cols lines hint c q := by
  induction h2 with
  | base => exact h1
  | step _ hq hmem ih => exact Reach.step ih hq hmem

theorem actionF_sound : ∀ (n : Nat) {b : MineSweeperBoard} {c : Pos}
    {b' : MineSweeperBoard} {cols lines : Int} {hint : Pos → Nat},
    actionF n b c false = some b' →
    cols = b.cols → lines = b.lines → hint = hintVal b.cols b.lines b.grid →
    ∀ q, openAt b'.grid q → openAt b.grid q ∨ Reach cols lines hint c q := by
  intro n
  induction n with
  | zero =>
    intro b c b' cols lines hint h
    cases h
  | succ k ih =>
    intro b c b' cols lines hint h hcols hlines hhint q hq
    cases hl : lookupG b.grid c with
    | none =>
      rw [actionF_keyError _ _ hl] at h
      cases h
    | some s =>
      by_cases h4 : s = 4
      · subst h4
        rw [actionF_exact_open false hl] at h
        cases h
        exact Or.inl hq
      by_cases h2 : s &&& 2 = 2
      · rw [actionF_flagged_noop hl h4 h2] at h
        cases h
        exact Or.inl hq
      by_cases h1 : s = 1
      · subst h1
        rw [actionF_mine_reveal hl] at h
        cases h
        by_cases hqc : q = c
        · subst hqc
          exact Or.inr Reach.base
        · obtain ⟨t, ht, htb⟩ := hq
          rw [show (openCell b c 1).grid = setG b.grid c (1 ||| 4) from rfl,
            lookupG_setG_ne _ _ hqc] at ht
          exact Or.inl ⟨t, ht, htb⟩
      cases hm : minesNearby (setG b.grid c (s ||| 4)) (get_neighbors b.cols b.lines c) with
      | none =>
        rw [actionF_reveal_mnone hl h4 h2 h1 hm] at h
        cases h
      | some m =>
        by_cases hm0 : m = 0
        · subst hm0
          rw [actionF_reveal_cascade hl h4 h2 h1 hm] at h
          have hpk : Pack b (hintBoard b c s 0) := pack_setG rfl rfl rfl rfl hl
          have hc0 : hintVal b.cols b.lines b.grid c = 0 := by
            have hx : hintVal b.cols b.lines (hintBoard b c s 0).grid c = 0 := by
              rw [hintBoard_grid, hintVal]
              exact (minesNearby_val hm).symm
            rw [evolves_hintVal hpk.1 b.cols b.lines c] at hx
            exact hx
          have hRS : ∀ r ∈ get_neighbors b.cols b.lines c,
              Reach cols lines hint c r := by
            intro r hr
            refine Reach.step Reach.base ?_ ?_
            · rw [hhint]
              exact hc0
            · rw [hcols, hlines]
              exact hr
          have hchain := actionsF_chain
            (P := fun x y => Evolves x y ∧
              ∀ q', openAt y.grid q' → openAt x.grid q' ∨ Reach cols lines hint c q')
            (fun x => ⟨evolves_refl x, fun _ h' => Or.inl h'⟩)
            (fun {x y z} p1 p2 => ⟨evolves_trans p1.1 p2.1,
              fun q' h' => (p2.2 q' h').elim
                (fun ho => (p1.2 q' ho).elim Or.inl Or.inr) Or.inr⟩)
            k _ _ _ h ?_
          · rcases hchain.2 q hq with ho | hr
            · by_cases hqc : q = c
              · subst hqc
                exact Or.inr Reach.base
              · obtain ⟨t, ht, htb⟩ := ho
                rw [hintBoard_grid, lookupG_setG_ne _ _ hqc] at ht
                exact Or.inl ⟨t, ht, htb⟩
            · exact Or.inr hr
          · intro r hr x y hPx hxy
            have hEbx : Evolves b x := evolves_trans hpk.1 hPx.1
            have hpy := actionF_pack hxy
            refine ⟨hpy.1, ?_⟩
            intro q' hq'
            have hhint' : hint = hintVal x.cols x.lines x.grid := by
              rw [hEbx.1, hEbx.2.1, hhint]
              funext q''
              exact (evolves_hintVal hEbx b.cols b.lines q'').symm
            rcases ih hxy (hcols.trans hEbx.1.symm) (hlines.trans hEbx.2.1.symm) hhint' q' hq'
              with ho | hrr
            · exact Or.inl ho
            · exact Or.inr (reach_trans (hRS r hr) hrr)
        · rw [actionF_reveal_stop hl h4 h2 h1 hm hm0] at h
          cases h
          by_cases hqc : q = c
          · subst hqc
            exact Or.inr Reach.base
          · obtain ⟨t, ht, htb⟩ := hq
            rw [hintBoard_grid, lookupG_setG_ne _ _ hqc] at ht
            exact Or.inl ⟨t, ht, htb⟩

/-! ## Completeness of the cascade -/

theorem actionF_opens : ∀ (n : Nat) {b : MineSweeperBoard} {r : Pos}
    {y : MineSweeperBoard} {t : Nat},
    actionF n b r false = some y → lookupG b.grid r = some t → t &&& 2 ≠ 2 →
    openAt y.grid r := by
  intro n
  cases n with
  | zero =>
    intro b r y t h
    cases h
  | succ k =>
    intro b r y t h hl h2
    by_cases h4 : t = 4
    · subst h4
      rw [actionF_exact_open false hl] at h
      cases h
      exact ⟨4, hl, by decide⟩
    by_cases h1 : t = 1
    · subst h1
      rw [actionF_mine_reveal hl] at h
      cases h
      refine ⟨1 ||| 4, ?_, by rw [or_four_and_four]; omega⟩
      rw [show (openCell b r 1).grid = setG b.grid r (1 ||| 4) from rfl,
        lookupG_setG_eq, hl]
      rfl
    cases hm : minesNearby (setG b.grid r (t ||| 4)) (get_neighbors b.cols b.lines r) with
    | none =>
      rw [actionF_reveal_mnone hl h4 h2 h1 hm] at h
      cases h
    | some m =>
      have hopen : openAt (hintBoard b r t 0).grid r := by
        refine ⟨t ||| 4, ?_, by rw [or_four_and_four]; omega⟩
        rw [hintBoard_grid, lookupG_setG_eq, hl]
        rfl
      by_cases hm0 : m = 0
      · subst hm0
        rw [actionF_reveal_cascade hl h4 h2 h1 hm] at h
        have hE : Evolves (hintBoard b r t 0) y :=
          actionsF_chain (P := Evolves) evolves_refl (fun {x y z} => evolves_trans)
            k _ _ _ h (fun r'' _ x y' _ hxy => (actionF_pack hxy).1)
        exact evolves_openAt hE hopen
      · rw [actionF_reveal_stop hl h4 h2 h1 hm hm0] at h
        cases h
        refine ⟨t ||| 4, ?_, by rw [or_four_and_four]; omega⟩
        rw [hintBoard_grid, lookupG_setG_eq, hl]
        rfl

theorem actionsF_members : ∀ (n : Nat) (l : List Pos) (b0 b1 : MineSweeperBoard),
    actionsF n b0 l = some b1 →
    ∀ r ∈ l, ∀ t, lookupG b0.grid r = some t → t &&& 2 ≠ 2 → openAt b1.grid r := by
  intro n l
  induction l with
  | nil =>
    intro b0 b1 _ r hr
    cases hr
  | cons r' rest ih =>
    intro b0 b1 h r hr t ht h2
    rw [actionsF_cons] at h
    cases hm : actionF n b0 r' false with
    | none =>
      rw [hm] at h
      cases h
    | some m =>
      rw [hm, Option.some_bind] at h
      have hEm : Evolves m b1 :=
        actionsF_chain (P := Evolves) evolves_refl (fun {x y z} => evolves_trans)
          n rest m b1 h (fun r'' _ x y _ hxy => (actionF_pack hxy).1)
      rcases List.mem_cons.1 hr with rfl | hrest
      · exact evolves_openAt hEm (actionF_opens n hm ht h2)
      · have hE0 := (actionF_pack hm).1
        rcases hE0.2.2.2.2 r with he | ⟨u, hu1, hu2⟩
        · exact ih m b1 h r hrest t (he.trans ht) h2
        · rw [ht] at hu1
          cases hu1
          refine ih m b1 h r hrest (t ||| 4) hu2 ?_
          rw [or_four_and_two]
          exact h2

theorem postRel_comp {x y z : MineSweeperBoard} (e1 : Evolves x y) (e2 : Evolves y z)
    (p1 : PostRel x y) (p2 : PostRel y z) : PostRel x z := by
  intro q hnx hz hmf hh r hr
  by_cases hy : openAt y.grid q
  · rcases p1 q hnx hy hmf hh r hr with ho | hf
    · exact Or.inl (evolves_openAt e2 ho)
    · exact Or.inr hf
  · have hmfy : mineFreeAt y.grid q := (evolves_mineFreeAt e1 q).2 hmf
    have hhy : hintVal y.cols y.lines y.grid q = 0 := by
      rw [e1.1, e1.2.1, evolves_hintVal e1]
      exact hh
    have hr' : r ∈ get_neighbors y.cols y.lines q := by
      rw [e1.1, e1.2.1]
      exact hr
    rcases p2 q hy hz hmfy hhy r hr' with ho | hf
    · exact Or.inl ho
    · exact Or.inr ((evolves_flaggedAt e1 r).1 hf)

theorem actionF_post : ∀ (n : Nat) {b : MineSweeperBoard} {c : Pos} {b' : MineSweeperBoard},
    actionF n b c false = some b' → PostRel b b' := by
  intro n
  induction n with
  | zero =>
    intro b c b' h
    cases h
  | succ k ih =>
    intro b c b' h
    cases hl : lookupG b.grid c with
    | none =>
      rw [actionF_keyError _ _ hl] at h
      cases h
    | some s =>
      by_cases h4 : s = 4
      · subst h4
        rw [actionF_exact_open false hl] at h
        cases h
        intro q hn ho
        exact absurd ho hn
      by_cases h2 : s &&& 2 = 2
      · rw [actionF_flagged_noop hl h4 h2] at h
        cases h
        intro q hn ho
        exact absurd ho hn
      by_cases h1 : s = 1
      · subst h1
        rw [actionF_mine_reveal hl] at h
        cases h
        intro q hn ho hmf _ r hr
        by_cases hqc : q = c
        · subst hqc
          have := hmf 1 hl
          simp at this
        · exfalso
          obtain ⟨t, ht, htb⟩ := ho
          rw [show (openCell b c 1).grid = setG b.grid c (1 ||| 4) from rfl,
            lookupG_setG_ne _ _ hqc] at ht
          exact hn ⟨t, ht, htb⟩
      cases hm : minesNearby (setG b.grid c (s ||| 4)) (get_neighbors b.cols b.lines c) with
      | none =>
        rw [actionF_reveal_mnone hl h4 h2 h1 hm] at h
        cases h
      | some m =>
        have hpk : Pack b (hintBoard b c s m) := pack_setG rfl rfl rfl rfl hl
        have hmv : hintVal b.cols b.lines b.grid c = m := by
          have hx : hintVal b.cols b.lines (hintBoard b c s m).grid c = m := by
            rw [hintBoard_grid, hintVal]
            exact (minesNearby_val hm).symm
          rw [evolves_hintVal hpk.1 b.cols b.lines c] at hx
          exact hx
        by_cases hm0 : m = 0
        · subst hm0
          rw [actionF_reveal_cascade hl h4 h2 h1 hm] at h
          have hchain := actionsF_chain
            (P := fun x y => Evolves x y ∧ PostRel x y)
            (fun x => ⟨evolves_refl x, fun q hn ho => absurd ho hn⟩)
            (fun {x y z} q1 q2 => ⟨evolves_trans q1.1 q2.1,
              postRel_comp q1.1 q2.1 q1.2 q2.2⟩)
            k _ _ _ h (fun r _ x y _ hxy => ⟨(actionF_pack hxy).1, ih hxy⟩)
          intro q hn ho hmf hh r hr
          by_cases hqc : q = c
          · subst hqc
            obtain ⟨t, ht, htm⟩ := minesNearby_zero hm r hr
            by_cases ht2 : t &&& 2 = 2
            · refine Or.inr ((evolves_flaggedAt hpk.1 r).1 ?_)
              rw [← hintBoard_grid b q s 0] at ht
              exact ⟨t, ht, ht2⟩
            · rw [← hintBoard_grid b q s 0] at ht
              exact Or.inl (actionsF_members k _ _ _ h r hr t ht ht2)
          · have hnh : ¬ openAt (hintBoard b c s 0).grid q := by
              intro hoh
              obtain ⟨t, ht, htb⟩ := hoh
              rw [hintBoard_grid, lookupG_setG_ne _ _ hqc] at ht
              exact hn ⟨t, ht, htb⟩
            have hmfh : mineFreeAt (hintBoard b c s 0).grid q :=
              (evolves_mineFreeAt hpk.1 q).2 hmf
            have hhh : hintVal (hintBoard b c s 0).cols (hintBoard b c s 0).lines
                (hintBoard b c s 0).grid q = 0 := by
              rw [hintBoard_cols, hintBoard_lines, evolves_hintVal hpk.1]
              exact hh
            rcases hchain.2 q hnh ho hmfh hhh r hr with ho' | hf'
            · exact Or.inl ho'
            · exact Or.inr ((evolves_flaggedAt hpk.1 r).1 hf')
        · rw [actionF_reveal_stop hl h4 h2 h1 hm hm0] at h
          cases h
          intro q hn ho hmf hh r hr
          by_cases hqc : q = c
          · subst hqc
            rw [hh] at hmv
            exact absurd hmv.symm hm0
          · exfalso
            obtain ⟨t, ht, htb⟩ := ho
            rw [hintBoard_grid, lookupG_setG_ne _ _ hqc] at ht
            exact hn ⟨t, ht, htb⟩

/-! ## Region and ring -/

theorem hintVal_zero {cols lines : Int} {g : Grid} {q : Pos}
    (h : hintVal cols lines g q = 0) :
    ∀ r ∈ get_neighbors cols lines q, mineBit g r = false := by
  intro r hr
  have hnil : (get_neighbors cols lines q).filter (mineBit g) = [] :=
    List.length_eq_zero.1 h
  cases hb : mineBit g r with
  | false => rfl
  | true =>
    exfalso
    have : r ∈ (get_neighbors cols lines q).filter (mineBit g) :=
      List.mem_filter.2 ⟨hr, hb⟩
    rw [hnil] at this
    cases this

theorem mineFree_of_mineBit_false {g : Grid} {q : Pos} (h : mineBit g q = false) :
    mineFreeAt g q := by
  intro s hs
  rw [mineBit_some hs] at h
  rcases and_one_cases s with h0 | h1
  · exact h0
  · rw [h1] at h
    cases h

theorem reach_mineFree {cols lines : Int} {g : Grid} {c q : Pos}
    (h : Reach cols lines (hintVal cols lines g) c q) :
    q = c ∨ mineBit g q = false := by
  induction h with
  | base => exact Or.inl rfl
  | step _ hh hmem _ => exact Or.inr (hintVal_zero hh _ hmem)

theorem zeroRegion_hint {cols lines : Int} {hint : Pos → Nat} {c q : Pos}
    (h : ZeroRegion cols lines hint c q) : hint q = 0 := by
  cases h with
  | base h => exact h
  | step _ _ h => exact h

theorem zeroRegion_reach {cols lines : Int} {hint : Pos → Nat} {c q : Pos}
    (h : ZeroRegion cols lines hint c q) : Reach cols lines hint c q := by
  induction h with
  | base _ => exact Reach.base
  | step hq hmem _ ih => exact Reach.step ih (zeroRegion_hint hq) hmem

theorem reach_iff_region_ring {cols lines : Int} {hint : Pos → Nat} {c : Pos}
    (hc : hint c = 0) (q : Pos) :
    Reach cols lines hint c q ↔
      ZeroRegion cols lines hint c q ∨ RingCell cols lines hint c q := by
  constructor
  · intro h
    induction h with
    | base => exact Or.inl (ZeroRegion.base hc)
    | step hq hh hmem ih =>
      rcases ih with hzr | hring
      · rename_i q' r
        by_cases hz : hint r = 0
        · exact Or.inl (ZeroRegion.step hzr hmem hz)
        · exact Or.inr ⟨⟨q', hzr, hmem⟩, hz⟩
      · exact absurd hh hring.2
  · intro h
    rcases h with hzr | hring
    · exact zeroRegion_reach hzr
    · obtain ⟨⟨q', hzr', hmem⟩, -⟩ := hring
      exact Reach.step (zeroRegion_reach hzr') (zeroRegion_hint hzr') hmem

/-- C5 (amended): on a board in which no cell is flagged or already open
(every state is `_SAFE` or `_MINE`, e.g. a freshly constructed board),
revealing a `SAFE` cell `p` with zero mined neighbours opens exactly the
connected zero-hint region of `p` together with its one bordering ring of
non-zero-hint cells, and changes no cell beyond that ring.  (The unamended
claim fails when a cell of the region is flagged or pre-opened — the cascade
skips it and everything behind it; see
`action_zero_region_counterexample`.) -/
theorem action_zero_region (b : MineSweeperBoard) (p : Pos)
    (hw : WFgrid b)
    (hfresh : ∀ e ∈ b.grid, e.2 = 0 ∨ e.2 = 1)
    (hp : lookupG b.grid p = some 0)
    (hh : hintVal b.cols b.lines b.grid p = 0) :
    ∃ b', action b p false = some b' ∧
      (∀ q, openAt b'.grid q ↔
        (ZeroRegion b.cols b.lines (hintVal b.cols b.lines b.grid) p q ∨
         RingCell b.cols b.lines (hintVal b.cols b.lines b.grid) p q)) ∧
      (∀ q, ¬ (ZeroRegion b.cols b.lines (hintVal b.cols b.lines b.grid) p q ∨
               RingCell b.cols b.lines (hintVal b.cols b.lines b.grid) p q) →
        lookupG b'.grid q = lookupG b.grid q) := by
  have hv : ValidStates b := by
    intro e he
    rcases hfresh e he with h | h <;> omega
  have hnoopen : ∀ q, ¬ openAt b.grid q := by
    rintro q ⟨s, hs, hbit⟩
    rcases hfresh _ (lookupG_mem hs) with h | h
    · exact hbit (by rw [show s = 0 from h]; decide)
    · exact hbit (by rw [show s = 1 from h]; decide)
  have hnoflag : ∀ q, ¬ flaggedAt b.grid q := by
    rintro q ⟨s, hs, hbit⟩
    rcases hfresh _ (lookupG_mem hs) with h | h
    · rw [show s = 0 from h] at hbit
      exact absurd hbit (by decide)
    · rw [show s = 1 from h] at hbit
      exact absurd hbit (by decide)
  obtain ⟨b', hb'⟩ := actionF_suff (fuelBound b) b p false hv hw (by rw [hp]; rfl)
    (by simp only [fuelBound]; omega) (fun _ => by simp only [fuelBound]; omega)
  have hsound := actionF_sound (fuelBound b) hb' rfl rfl rfl
  have hpost := actionF_post (fuelBound b) hb'
  have hopenp : openAt b'.grid p := actionF_opens (fuelBound b) hb' hp (by decide)
  have hcomplete : ∀ q, Reach b.cols b.lines (hintVal b.cols b.lines b.grid) p q →
      openAt b'.grid q := by
    intro q hq
    induction hq with
    | base => exact hopenp
    | step hq' hhint hmem ih =>
      rename_i q' r
      have hmf : mineFreeAt b.grid q' := by
        rcases reach_mineFree hq' with rfl | hmb
        · intro s hs
          rw [hp] at hs
          cases hs
          rfl
        · exact mineFree_of_mineBit_false hmb
      rcases hpost q' (hnoopen q') ih hmf hhint r hmem with ho | hf
      · exact ho
      · exact absurd hf (hnoflag r)
  refine ⟨b', hb', fun q => ⟨fun hq => ?_, fun hq => ?_⟩, fun q hq => ?_⟩
  · rcases hsound q hq with ho | hr
    · exact absurd ho (hnoopen q)
    · exact (reach_iff_region_ring hh q).1 hr
  · exact hcomplete q ((reach_iff_region_ring hh q).2 hq)
  · rcases (actionF_pack hb').1.2.2.2.2 q with he | ⟨u, hu1, hu2⟩
    · exact he
    · exfalso
      refine hq ((reach_iff_region_ring hh q).1 ?_)
      rcases hsound q ⟨u ||| 4, hu2, by rw [or_four_and_four]; omega⟩ with ho | hr
      · exact absurd ho (hnoopen q)
      · exact hr

theorem action_zero_region_witness :
    ∃ b', action (randomBoard 2 2 [] 0) ((0 : Int), (0 : Int)) false = some b' ∧
      (∀ q, openAt b'.grid q ↔
        (ZeroRegion (randomBoard 2 2 [] 0).cols (randomBoard 2 2 [] 0).lines
          (hintVal (randomBoard 2 2 [] 0).cols (randomBoard 2 2 [] 0).lines
            (randomBoard 2 2 [] 0).grid) (0, 0) q ∨
         RingCell (randomBoard 2 2 [] 0).cols (randomBoard 2 2 [] 0).lines
          (hintVal (randomBoard 2 2 [] 0).cols (randomBoard 2 2 [] 0).lines
            (randomBoard 2 2 [] 0).grid) (0, 0) q)) ∧
      (∀ q, ¬ (ZeroRegion (randomBoard 2 2 [] 0).cols (randomBoard 2 2 [] 0).lines
          (hintVal (randomBoard 2 2 [] 0).cols (randomBoard 2 2 [] 0).lines
            (randomBoard 2 2 [] 0).grid) (0, 0) q ∨
         RingCell (randomBoard 2 2 [] 0).cols (randomBoard 2 2 [] 0).lines
          (hintVal (randomBoard 2 2 [] 0).cols (randomBoard 2 2 [] 0).lines
            (randomBoard 2 2 [] 0).grid) (0, 0) q) →
        lookupG b'.grid q = lookupG (randomBoard 2 2 [] 0).grid q) :=
  action_zero_region (randomBoard 2 2 [] 0) (0, 0) (by decide) (by decide) (by decide)
    (by decide)

/-- C5, counterexample to the unamended claim: on the 3×1 mine-free board
with `(1,0)` flagged (reachable by one flagging action from construction),
`(0,0)` is `SAFE` with zero mined neighbours and `(2,0)` lies in its connected
zero-hint region, yet `action((0,0), False)` leaves `(2,0)` closed (state
`SAFE`), because the flagged cell `(1,0)` blocks the cascade. -/
theorem action_zero_region_counterexample :
    (action (randomBoard 3 1 [] 0) ((1 : Int), (0 : Int)) true).map
        MineSweeperBoard.grid =
      some [(((0 : Int), (0 : Int)), 0), ((1, 0), 2), ((2, 0), 0)] ∧
    ((action (randomBoard 3 1 [] 0) ((1 : Int), (0 : Int)) true).bind
        (fun b1 => action b1 (0, 0) false)).map
      (fun b2 => lookupG b2.grid (2, 0)) = some (some 0) ∧
    lookupG [(((0 : Int), (0 : Int)), 0), ((1, 0), 2), ((2, 0), 0)] (0, 0) = some 0 ∧
    hintVal 3 1 [(((0 : Int), (0 : Int)), 0), ((1, 0), 2), ((2, 0), 0)] (0, 0) = 0 ∧
    ZeroRegion 3 1 (hintVal 3 1 [(((0 : Int), (0 : Int)), 0), ((1, 0), 2), ((2, 0), 0)])
      (0, 0) (2, 0) := by
  refine ⟨by decide, by decide, by decide, by decide, ?_⟩
  apply @ZeroRegion.step 3 1 _ (0, 0) (1, 0) (2, 0) ?_ (by decide) (by decide)
  apply @ZeroRegion.step 3 1 _ (0, 0) (0, 0) (1, 0) (ZeroRegion.base (by decide))
    (by decide) (by decide)

/-! ## `last_clicked` through a cascade -/

theorem lcSafe_trans {x y z : MineSweeperBoard} (h1 : lcSafe x y) (h2 : lcSafe y z) :
    lcSafe x z := by
  rcases h2 with h2 | h2
  · rcases h1 with h1 | h1
    · exact Or.inl (h2.trans h1)
    · exact Or.inr (h2 ▸ h1)
  · exact Or.inr h2

theorem actionF_lcSafe : ∀ (n : Nat) {b : MineSweeperBoard} {c : Pos} {b' : MineSweeperBoard},
    actionF n b c false = some b' → mineFreeAt b.grid c → lcSafe b b' := by
  intro n
  induction n with
  | zero =>
    intro b c b' h
    cases h
  | succ k ih =>
    intro b c b' h hmf
    cases hl : lookupG b.grid c with
    | none =>
      rw [actionF_keyError _ _ hl] at h
      cases h
    | some s =>
      have hs0 : s &&& 1 = 0 := hmf s hl
      by_cases h4 : s = 4
      · subst h4
        rw [actionF_exact_open false hl] at h
        cases h
        exact Or.inl rfl
      by_cases h2 : s &&& 2 = 2
      · rw [actionF_flagged_noop hl h4 h2] at h
        cases h
        exact Or.inl rfl
      by_cases h1 : s = 1
      · exfalso
        subst h1
        simp at hs0
      cases hm : minesNearby (setG b.grid c (s ||| 4)) (get_neighbors b.cols b.lines c) with
      | none =>
        rw [actionF_reveal_mnone hl h4 h2 h1 hm] at h
        cases h
      | some m =>
        by_cases hm0 : m = 0
        · subst hm0
          rw [actionF_reveal_cascade hl h4 h2 h1 hm] at h
          have hpk : Pack b (hintBoard b c s 0) := pack_setG rfl rfl rfl rfl hl
          have hchain := actionsF_chain
            (P := fun x y => Evolves x y ∧ lcSafe x y)
            (fun x => ⟨evolves_refl x, Or.inl rfl⟩)
            (fun {x y z} q1 q2 => ⟨evolves_trans q1.1 q2.1, lcSafe_trans q1.2 q2.2⟩)
            k _ _ _ h ?_
          · have hfirst : lcSafe b (hintBoard b c s 0) := Or.inr ⟨s, rfl, hs0⟩
            exact lcSafe_trans hfirst hchain.2
          · intro r hr x y hPx hxy
            refine ⟨(actionF_pack hxy).1, ih hxy ?_⟩
            obtain ⟨t, ht, htm⟩ := minesNearby_zero hm r hr
            rw [← hintBoard_grid b c s 0] at ht
            intro u hu
            rcases hPx.1.2.2.2.2 r with he | ⟨w, hw1, hw2⟩
            · rw [he, ht] at hu
              cases hu
              exact htm
            · rw [ht] at hw1
              cases hw1
              rw [hw2] at hu
              cases hu
              rw [or_four_and_one]
              exact htm
        · rw [actionF_reveal_stop hl h4 h2 h1 hm hm0] at h
          cases h
          exact Or.inr ⟨s, rfl, hs0⟩

/-- C9 (amended): an `action(p, False)` on a cell in state `SAFE`
(closed, unflagged, no mine) leaves `last_clicked` holding a mine-free
state: every reveal of the resulting cascade (including recursive
sub-reveals) records a prior state without the `_MINE` bit, so a cascade
started on a safe cell never produces a false loss signal.  (The unamended
claim — after `action(p, False)` on *any* non-mine `p`, `last_clicked` is
never `MINE` — fails when the action is a no-op, e.g. on a flagged cell,
and a stale `MINE` from an earlier reveal survives; see
`action_last_clicked_counterexample`.) -/
theorem action_last_clicked_safe (b : MineSweeperBoard) (p : Pos)
    (b' : MineSweeperBoard) (h : action b p false = some b')
    (hp : lookupG b.grid p = some 0) :
    ∃ t, b'.last_clicked = some t ∧ t &&& 1 = 0 := by
  rw [action, show fuelBound b = (2 * closedCount b + 3) + 1 from by
    simp only [fuelBound]] at h
  cases hm : minesNearby (setG b.grid p (0 ||| 4)) (get_neighbors b.cols b.lines p) with
  | none =>
    rw [actionF_reveal_mnone hp (by decide) (by decide) (by decide) hm] at h
    cases h
  | some m =>
    by_cases hm0 : m = 0
    · subst hm0
      rw [actionF_reveal_cascade hp (by decide) (by decide) (by decide) hm] at h
      have hpk : Pack b (hintBoard b p 0 0) := pack_setG rfl rfl rfl rfl hp
      have hchain := actionsF_chain
        (P := fun x y => Evolves x y ∧ lcSafe x y)
        (fun x => ⟨evolves_refl x, Or.inl rfl⟩)
        (fun {x y z} q1 q2 => ⟨evolves_trans q1.1 q2.1, lcSafe_trans q1.2 q2.2⟩)
        _ _ _ _ h ?_
      · rcases hchain.2 with hsame | ⟨t, ht, htm⟩
        · exact ⟨0, by rw [hsame]; rfl, by decide⟩
        · exact ⟨t, ht, htm⟩
      · intro r hr x y hPx hxy
        refine ⟨(actionF_pack hxy).1, actionF_lcSafe _ hxy ?_⟩
        obtain ⟨t, ht, htm⟩ := minesNearby_zero hm r hr
        rw [← hintBoard_grid b p 0 0] at ht
        intro u hu
        rcases hPx.1.2.2.2.2 r with he | ⟨w, hw1, hw2⟩
        · rw [he, ht] at hu
          cases hu
          exact htm
        · rw [ht] at hw1
          cases hw1
          rw [hw2] at hu
          cases hu
          rw [or_four_and_one]
          exact htm
    · rw [actionF_reveal_stop hp (by decide) (by decide) (by decide) hm hm0] at h
      cases h
      exact ⟨0, rfl, by decide⟩

theorem action_last_clicked_safe_witness :
    ∃ t, (MineSweeperBoard.mk [(((0 : Int), (0 : Int)), 4), ((0, 1), 0), ((1, 0), 0), ((1, 1), 1)]
      1 [((0, 0), 1)] 2 2 (some 0) 1 3).last_clicked = some t ∧ t &&& 1 = 0 :=
  action_last_clicked_safe (randomBoard 2 2 [((1 : Int), (1 : Int))] 1) (0, 0)
    (MineSweeperBoard.mk [(((0 : Int), (0 : Int)), 4), ((0, 1), 0), ((1, 0), 0), ((1, 1), 1)]
      1 [((0, 0), 1)] 2 2 (some 0) 1 3)
    (by decide) (by decide)

/-- C9, counterexample to the unamended claim: on the 2×1 board with its
mine at `(0,0)`, reveal the mine (`last_clicked` becomes `MINE`), flag the
non-mine cell `(1,0)`, then call `action((1,0), False)`.  The call is a
no-op — `(1,0)` stays in state `FLAGGED = 2`, which has no `_MINE` bit — yet
after it returns `last_clicked` is still `MINE = 1`. -/
theorem action_last_clicked_counterexample :
    (((action (randomBoard 2 1 [((0 : Int), (0 : Int))] 1) (0, 0) false).bind
        (fun b1 => action b1 (1, 0) true)).bind
        (fun b2 => action b2 (1, 0) false)).map
      (fun b3 => (lookupG b3.grid (1, 0), b3.last_clicked)) = some (some 2, some 1) := by
  decide

/-! ## Flag toggling -/

theorem and_two_eq_two_iff (s : Nat) : s &&& 2 = 2 ↔ s.testBit 1 = true := by
  constructor
  · intro h
    have := congrArg (fun x => Nat.testBit x 1) h
    simpa [Nat.testBit_and, testBit_two] using this
  · intro h
    apply Nat.eq_of_testBit_eq
    intro i
    rw [Nat.testBit_and, testBit_two]
    by_cases hi : 1 = i
    · subst hi
      simp [h]
    · simp [hi]

theorem xor_two_and_four (s : Nat) : (s ^^^ 2) &&& 4 = s &&& 4 := by
  apply Nat.eq_of_testBit_eq
  intro i
  rw [Nat.testBit_and, Nat.testBit_and, Nat.testBit_xor, testBit_two i, testBit_four i]
  by_cases h2 : 1 = i
  · subst h2
    simp
  · by_cases h4 : 2 = i <;> simp [h2, h4]

theorem or_two_and_four (s : Nat) : (s ||| 2) &&& 4 = s &&& 4 := by
  apply Nat.eq_of_testBit_eq
  intro i
  rw [Nat.testBit_and, Nat.testBit_and, Nat.testBit_or, testBit_two i, testBit_four i]
  by_cases h2 : 1 = i
  · subst h2
    simp
  · by_cases h4 : 2 = i <;> simp [h2, h4]

theorem xor_two_flagged {s : Nat} (h : s &&& 2 = 2) : (s ^^^ 2) &&& 2 = 0 := by
  have hb := (and_two_eq_two_iff s).1 h
  apply Nat.eq_of_testBit_eq
  intro i
  rw [Nat.testBit_and, Nat.testBit_xor, testBit_two i, Nat.zero_testBit]
  by_cases h2 : 1 = i
  · subst h2
    simp [hb]
  · simp [h2]

theorem or_two_flagged (s : Nat) : (s ||| 2) &&& 2 = 2 := by
  apply Nat.eq_of_testBit_eq
  intro i
  rw [Nat.testBit_and, Nat.testBit_or, testBit_two i]
  by_cases h2 : 1 = i
  · subst h2
    simp
  · simp [h2]

theorem or_xor_two {s : Nat} (h : s &&& 2 = 2) : (s ^^^ 2) ||| 2 = s := by
  have hb := (and_two_eq_two_iff s).1 h
  apply Nat.eq_of_testBit_eq
  intro i
  rw [Nat.testBit_or, Nat.testBit_xor, testBit_two i]
  by_cases h2 : 1 = i
  · subst h2
    simp [hb]
  · simp [h2]

theorem xor_or_two {s : Nat} (h : ¬ s &&& 2 = 2) : (s ||| 2) ^^^ 2 = s := by
  have hb : s.testBit 1 = false := by
    cases h' : s.testBit 1 with
    | false => rfl
    | true => exact absurd ((and_two_eq_two_iff s).2 h') h
  apply Nat.eq_of_testBit_eq
  intro i
  rw [Nat.testBit_xor, Nat.testBit_or, testBit_two i]
  by_cases h2 : 1 = i
  · subst h2
    simp [hb]
  · simp [h2]

theorem flagOp_grid (b : MineSweeperBoard) (p : Pos) (s : Nat) :
    (flagOp b p s).grid = setG b.grid p (if s &&& 2 = 2 then s ^^^ 2 else s ||| 2) := by
  simp only [flagOp]
  split_ifs <;> rfl

theorem flagOp_mines (b : MineSweeperBoard) (p : Pos) (s : Nat) :
    (flagOp b p s).mines_left =
      if s = 1 then b.mines_left - 1
      else if (if s &&& 2 = 2 then s ^^^ 2 else s ||| 2) = 1 then b.mines_left + 1
      else b.mines_left := by
  simp only [flagOp]
  split_ifs <;> rfl

theorem action_flag {b : MineSweeperBoard} {p : Pos} {s : Nat}
    (hp : lookupG b.grid p = some s) (h4 : s ≠ 4) :
    action b p true = some (flagOp b p s) := by
  rw [action, show fuelBound b = (2 * closedCount b + 3) + 1 from by simp only [fuelBound]]
  exact actionF_flag_branch hp h4

theorem xor_two_and_one (s : Nat) : (s ^^^ 2) &&& 1 = s &&& 1 := by
  apply Nat.eq_of_testBit_eq
  intro i
  rw [Nat.testBit_and, Nat.testBit_and, Nat.testBit_xor, testBit_two i, testBit_one i]
  by_cases h2 : 1 = i
  · subst h2
    simp
  · by_cases h1 : 0 = i <;> simp [h2, h1]

theorem or_two_and_one (s : Nat) : (s ||| 2) &&& 1 = s &&& 1 := by
  apply Nat.eq_of_testBit_eq
  intro i
  rw [Nat.testBit_and, Nat.testBit_and, Nat.testBit_or, testBit_two i, testBit_one i]
  by_cases h2 : 1 = i
  · subst h2
    simp
  · by_cases h1 : 0 = i <;> simp [h2, h1]

theorem action_open {b : MineSweeperBoard} {p : Pos} (fl : Bool)
    (hp : lookupG b.grid p = some 4) : action b p fl = some b := by
  rw [action, show fuelBound b = (2 * closedCount b + 3) + 1 from by simp only [fuelBound]]
  exact actionF_exact_open fl hp

/-- C7: on every board, flagging a closed mined cell and flagging it again
restores both the cell's state and `mines_left` to their original values; and
a single flag toggle on a non-mine cell never changes `mines_left`. -/
theorem flag_round_trip (b : MineSweeperBoard) (p : Pos) (s : Nat)
    (hp : lookupG b.grid p = some s) :
    ((s &&& 1 = 1 ∧ s &&& 4 = 0) →
      ∃ b1 b2, action b p true = some b1 ∧ action b1 p true = some b2 ∧
        lookupG b2.grid p = some s ∧ b2.mines_left = b.mines_left) ∧
    (s &&& 1 = 0 → ∃ b1, action b p true = some b1 ∧ b1.mines_left = b.mines_left) := by
  constructor
  · rintro ⟨hs1, hs4⟩
    have h4 : s ≠ 4 := by
      intro h
      rw [h] at hs1
      exact absurd hs1 (by decide)
    have hact1 := action_flag hp h4
    by_cases h2 : s &&& 2 = 2
    · have hvdef : (if s &&& 2 = 2 then s ^^^ 2 else s ||| 2) = s ^^^ 2 := if_pos h2
      have hlk1 : lookupG (flagOp b p s).grid p = some (s ^^^ 2) := by
        rw [flagOp_grid, hvdef, lookupG_setG_eq, hp]
        rfl
      have hv4 : (s ^^^ 2) &&& 4 = 0 := by
        rw [xor_two_and_four]
        exact hs4
      have hv4' : s ^^^ 2 ≠ 4 := by
        intro h
        rw [h] at hv4
        exact absurd hv4 (by decide)
      have hact2 := action_flag hlk1 hv4'
      have hv2 : ¬ (s ^^^ 2) &&& 2 = 2 := by
        rw [xor_two_flagged h2]
        decide
      have htog : (if (s ^^^ 2) &&& 2 = 2 then (s ^^^ 2) ^^^ 2 else (s ^^^ 2) ||| 2) = s := by
        rw [if_neg hv2, or_xor_two h2]
      have hs1' : s ≠ 1 := by
        intro h
        rw [h] at h2
        exact absurd h2 (by decide)
      refine ⟨_, _, hact1, hact2, ?_, ?_⟩
      · rw [flagOp_grid, htog, lookupG_setG_eq, hlk1]
        rfl
      · simp only [flagOp_mines, hvdef, htog]
        split_ifs <;> omega
    · have hvdef : (if s &&& 2 = 2 then s ^^^ 2 else s ||| 2) = s ||| 2 := if_neg h2
      have hlk1 : lookupG (flagOp b p s).grid p = some (s ||| 2) := by
        rw [flagOp_grid, hvdef, lookupG_setG_eq, hp]
        rfl
      have hv4 : (s ||| 2) &&& 4 = 0 := by
        rw [or_two_and_four]
        exact hs4
      have hv4' : s ||| 2 ≠ 4 := by
        intro h
        rw [h] at hv4
        exact absurd hv4 (by decide)
      have hact2 := action_flag hlk1 hv4'
      have htog : (if (s ||| 2) &&& 2 = 2 then (s ||| 2) ^^^ 2 else (s ||| 2) ||| 2) = s := by
        rw [if_pos (or_two_flagged s), xor_or_two h2]
      have hvne1 : s ||| 2 ≠ 1 := by
        intro h
        have := or_two_flagged s
        rw [h] at this
        exact absurd this (by decide)
      refine ⟨_, _, hact1, hact2, ?_, ?_⟩
      · rw [flagOp_grid, htog, lookupG_setG_eq, hlk1]
        rfl
      · simp only [flagOp_mines, hvdef, htog]
        split_ifs <;> omega
  · intro hs1
    have hs1' : s ≠ 1 := by
      intro h
      rw [h] at hs1
      exact absurd hs1 (by decide)
    by_cases h4 : s = 4
    · subst h4
      exact ⟨b, action_open true hp, rfl⟩
    · have hv1 : (if s &&& 2 = 2 then s ^^^ 2 else s ||| 2) ≠ 1 := by
        split_ifs with h2
        · intro h
          have := xor_two_and_one s
          rw [h, hs1] at this
          exact absurd this (by decide)
        · intro h
          have := or_two_and_one s
          rw [h, hs1] at this
          exact absurd this (by decide)
      refine ⟨flagOp b p s, action_flag hp h4, ?_⟩
      rw [flagOp_mines, if_neg hs1', if_neg hv1]

theorem flag_round_trip_witness :
    ((1 &&& 1 = 1 ∧ 1 &&& 4 = 0) →
      ∃ b1 b2, action (randomBoard 2 1 [((0 : Int), (0 : Int))] 1) (0, 0) true = some b1 ∧
        action b1 (0, 0) true = some b2 ∧
        lookupG b2.grid (0, 0) = some 1 ∧
        b2.mines_left = (randomBoard 2 1 [((0 : Int), (0 : Int))] 1).mines_left) ∧
    (1 &&& 1 = 0 →
      ∃ b1, action (randomBoard 2 1 [((0 : Int), (0 : Int))] 1) (0, 0) true = some b1 ∧
        b1.mines_left = (randomBoard 2 1 [((0 : Int), (0 : Int))] 1).mines_left) :=
  flag_round_trip (randomBoard 2 1 [((0 : Int), (0 : Int))] 1) (0, 0) 1 (by decide)

/-- C6: revealing a cell in state exactly `MINE` (closed, unflagged mine)
sets that cell to `MINE ||| OPEN = 5`, records the prior state `MINE` in
`last_clicked`, and changes nothing else: no other cell, no
`cells_revealed` increment, no `hints` entry, no `mines_left` change — the
losing terminal transition performs no flood fill. -/
theorem action_reveal_mine (b : MineSweeperBoard) (p : Pos)
    (hp : lookupG b.grid p = some 1) :
    ∃ b', action b p false = some b' ∧
      lookupG b'.grid p = some 5 ∧
      (∀ q, q ≠ p → lookupG b'.grid q = lookupG b.grid q) ∧
      b'.last_clicked = some 1 ∧
      b'.cells_revealed = b.cells_revealed ∧
      b'.hints = b.hints ∧
      b'.mines_left = b.mines_left ∧
      b'.cols = b.cols ∧ b'.lines = b.lines ∧ b'.safe_cells = b.safe_cells := by
  rw [action, show fuelBound b = (2 * closedCount b + 3) + 1 from by simp only [fuelBound]]
  rw [actionF_mine_reveal hp]
  refine ⟨openCell b p 1, rfl, ?_, ?_, rfl, rfl, rfl, rfl, rfl, rfl, rfl⟩
  · rw [show (openCell b p 1).grid = setG b.grid p (1 ||| 4) from rfl,
      lookupG_setG_eq, hp]
    rfl
  · intro q hq
    rw [show (openCell b p 1).grid = setG b.grid p (1 ||| 4) from rfl,
      lookupG_setG_ne _ _ hq]

theorem action_reveal_mine_witness :
    ∃ b', action (randomBoard 2 1 [((0 : Int), (0 : Int))] 1) (0, 0) false = some b' ∧
      lookupG b'.grid (0, 0) = some 5 ∧
      (∀ q, q ≠ ((0 : Int), (0 : Int)) →
        lookupG b'.grid q = lookupG (randomBoard 2 1 [((0 : Int), (0 : Int))] 1).grid q) ∧
      b'.last_clicked = some 1 ∧
      b'.cells_revealed = (randomBoard 2 1 [((0 : Int), (0 : Int))] 1).cells_revealed ∧
      b'.hints = (randomBoard 2 1 [((0 : Int), (0 : Int))] 1).hints ∧
      b'.mines_left = (randomBoard 2 1 [((0 : Int), (0 : Int))] 1).mines_left ∧
      b'.cols = (randomBoard 2 1 [((0 : Int), (0 : Int))] 1).cols ∧
      b'.lines = (randomBoard 2 1 [((0 : Int), (0 : Int))] 1).lines ∧
      b'.safe_cells = (randomBoard 2 1 [((0 : Int), (0 : Int))] 1).safe_cells :=
  action_reveal_mine (randomBoard 2 1 [((0 : Int), (0 : Int))] 1) (0, 0) (by decide)

/-- C4, counterexample to the claim: on the 3×3 board with its single
mine at `(1,1)`, `action((0,0), False)` leaves the non-mine cell `(1,0)`
closed (state `SAFE`) and produces `hints = {(0,0): 1}` only — not the
claimed eight open cells with eight hint entries. -/
theorem action_3x3_counterexample :
    (action (randomBoard 3 3 [((1 : Int), (1 : Int))] 1) (0, 0) false).map
      (fun b' => (lookupG b'.grid (1, 0), b'.hints)) =
      some (some 0, [((0, 0), 1)]) := by
  decide

/-- C4 (amended): on the 3×3 board (`cols = 3`, `lines = 3`) with a
single mine at `(1,1)` and all other cells `SAFE`, `action((0,0), False)`
opens only `(0,0)`, stores `hints = {(0,0): 1}` (its one mined neighbour),
increments `cells_revealed` to 1, and cascades nowhere — every other cell
keeps its initial state, because `(0,0)`'s hint is non-zero so no flood
fill starts. -/
theorem action_3x3_center_mine :
    action (randomBoard 3 3 [((1 : Int), (1 : Int))] 1) (0, 0) false =
      some (MineSweeperBoard.mk
        [(((0 : Int), (0 : Int)), 4), ((0, 1), 0), ((0, 2), 0), ((1, 0), 0), ((1, 1), 1),
         ((1, 2), 0), ((2, 0), 0), ((2, 1), 0), ((2, 2), 0)]
        1 [((0, 0), 1)] 3 3 (some 0) 1 8) := by
  decide

/-- C1 (code bug): `action` only no-ops on a cell whose state is exactly
`OPEN = 4` (`state == _OPEN`), not on every cell with the `OPEN` bit set.  On
the 1×1 one-mine board, the first click reveals the mine — state becomes
`MINE ||| OPEN = 5` — and a second `action((0,0), False)` is *not* a no-op:
it re-enters `reveal`, overwrites `last_clicked` with 5, increments
`cells_revealed`, and writes a `hints` entry. -/
theorem action_open_mine_not_noop :
    (action (randomBoard 1 1 [((0 : Int), (0 : Int))] 1) (0, 0) false).map
      (fun b1 => (lookupG b1.grid (0, 0), b1.cells_revealed, b1.hints, b1.last_clicked)) =
      some (some 5, 0, ([] : List (Pos × Nat)), some 1) ∧
    ((action (randomBoard 1 1 [((0 : Int), (0 : Int))] 1) (0, 0) false).bind
      (fun b1 => action b1 (0, 0) false)).map
      (fun b2 => (lookupG b2.grid (0, 0), b2.cells_revealed, b2.hints, b2.last_clicked)) =
      some (some 5, 1, [((0, 0), 0)], some 5) := by
  exact ⟨rfl, rfl⟩

/-- C2 (code bug): after revealing the mine of the 1×1 one-mine board and
clicking it once more, `cells_revealed = 1` exceeds `safe_cells = 0`, and the
increment happened for a mined cell — both reachable from construction by two
`action` calls, violating the claimed invariant. -/
theorem cells_revealed_exceeds_safe :
    ((action (randomBoard 1 1 [((0 : Int), (0 : Int))] 1) (0, 0) false).bind
      (fun b1 => action b1 (0, 0) false)).map
      (fun b2 => (b2.cells_revealed, b2.safe_cells, lookupG b2.grid (0, 0))) =
      some (1, 0, some 5) := by
  decide

/-- C3 (code bug): the same two clicks on the 1×1 one-mine board leave a
`hints` entry for `(0,0)` although that cell's state 5 carries the `MINE`
bit — the claimed invariant "no entry ever exists for a mined cell" fails. -/
theorem hints_entry_for_mine :
    ((action (randomBoard 1 1 [((0 : Int), (0 : Int))] 1) (0, 0) false).bind
      (fun b1 => action b1 (0, 0) false)).map
      (fun b2 => (b2.hints, lookupG b2.grid (0, 0))) =
      some ([((0, 0), 0)], some 5) := by
  decide

/-- C10: an `action` at a position missing from the grid raises `KeyError`
before any mutation — in the embedding the call returns `none` at every fuel,
the exception being raised by the very first `self[position]` — and no
operation ever adds or removes a grid key: `action` (both flagging and
revealing, at any fuel), `open_mines` and `flag` preserve the key list
exactly, and a constructed grid's keys are exactly the `cols * lines`
product positions. -/
theorem action_keys_invariant :
    (∀ (n : Nat) (b : MineSweeperBoard) (p : Pos) (fl : Bool),
      lookupG b.grid p = none → actionF n b p fl = none) ∧
    (∀ (n : Nat) (b : MineSweeperBoard) (p : Pos) (fl : Bool) (b' : MineSweeperBoard),
      actionF n b p fl = some b' → b'.grid.map Prod.fst = b.grid.map Prod.fst) ∧
    (∀ b : MineSweeperBoard, (open_mines b).grid.map Prod.fst = b.grid.map Prod.fst) ∧
    (∀ (b : MineSweeperBoard) (p : Pos) (s : Nat),
      (flagOp b p s).grid.map Prod.fst = b.grid.map Prod.fst) ∧
    (∀ (cols lines : Int) (f : Pos → Bool),
      (mkGrid cols lines f).map Prod.fst = allPositions cols lines) := by
  refine ⟨?_, ?_, ?_, ?_, ?_⟩
  · intro n b p fl h
    exact actionF_keyError n fl h
  · intro n b p fl b' h
    cases fl with
    | false => exact (actionF_pack h).1.2.2.2.1
    | true =>
      cases n with
      | zero => cases h
      | succ k =>
        cases hl : lookupG b.grid p with
        | none =>
          rw [actionF_keyError _ _ hl] at h
          cases h
        | some s =>
          by_cases h4 : s = 4
          · subst h4
            rw [actionF_exact_open true hl] at h
            cases h
            rfl
          · rw [actionF_flag_branch hl h4] at h
            cases h
            rw [flagOp_grid]
            exact setG_keys _ _ _
  · intro b
    rw [open_mines, List.map_map]
    refine List.map_congr_left ?_
    intro e _
    by_cases h : e.2 &&& 1 = 1
    · rw [Function.comp_apply, if_pos h]
    · rw [Function.comp_apply, if_neg h]
  · intro b p s
    rw [flagOp_grid]
    exact setG_keys _ _ _
  · intro cols lines f
    rw [mkGrid, List.map_map]
    refine (List.map_congr_left ?_).trans (List.map_id _)
    intro p _
    rfl

theorem action_keys_invariant_witness :
    actionF 5 (randomBoard 1 1 [] 0) ((3 : Int), (3 : Int)) false = none :=
  action_keys_invariant.1 5 (randomBoard 1 1 [] 0) (3, 3) false (by decide)
